import Mathlib

/-!
Verification of the valyrianctx core: the rule-file synchronization engine
(`src/core/agent-rules.ts`), the context-extraction pipeline
(`src/core/parser.ts`) and the auto-save guard of the save command
(`src/commands/save.ts`), shallowly embedded over `List Char` strings.

JavaScript strings are modelled as `List Char`; the regex operations used by
the source (`start[\s\S]*?end` global replace, `\n?start[\s\S]*?end\n?`,
`\n*start[\s\S]*?end\n?`) are modelled by explicit leftmost-match scanners.
Files are `Option Str` (`none` = file absent); a file system is a map from
paths to file contents.
-/

set_option maxRecDepth 8000

namespace Valyrianctx

abbrev Str := List Char

def str (s : String) : Str := s.data

/-- The whitespace class used by JavaScript `trim`/`trimEnd` (ASCII part). -/
def isWs (c : Char) : Bool :=
  c = ' ' || c = '\t' || c = '\n' || c = '\r' || c = '\x0b' || c = '\x0c'

/-- Model of JS `String.prototype.trimStart`. -/
def jsTrimStart (s : Str) : Str := s.dropWhile isWs

/-- Model of JS `String.prototype.trimEnd`. -/
def jsTrimEnd (s : Str) : Str := (s.reverse.dropWhile isWs).reverse

/-- Model of JS `String.prototype.trim`. -/
def jsTrim (s : Str) : Str := jsTrimEnd (jsTrimStart s)

/-- Number of positions of `s` at which `pat` occurs (for nonempty `pat`,
the number of occurrences of `pat` as a substring, overlaps included). -/
def occCount (pat : Str) : Str → Nat
  | [] => 0
  | c :: rest => (if pat.isPrefixOf (c :: rest) then 1 else 0) + occCount pat rest

/-- Leftmost occurrence of `pat` in `s`: returns `some (pre, post)` with
`s = pre ++ pat ++ post`, splitting at the first occurrence. -/
def splitFirst (pat : Str) : Str → Option (Str × Str)
  | [] => if pat.isEmpty then some ([], []) else none
  | c :: rest =>
    if pat.isPrefixOf (c :: rest) then some ([], (c :: rest).drop pat.length)
    else
      match splitFirst pat rest with
      | some (pre, post) => some (c :: pre, post)
      | none => none

/-- Model of JS `String.prototype.includes`. -/
def containsSub (pat s : Str) : Bool := (splitFirst pat s).isSome

/-- Model of JS `s.endsWith("\n")`. -/
def endsWithNl (s : Str) : Bool := s.getLast? = some '\n'

/-- `pat` has no border: no nonempty proper prefix of `pat` is also a suffix
of `pat`.  All four valyrianctx markers satisfy this (checked by `decide`);
it rules out self-overlapping occurrences in the span-replacement lemmas. -/
def unbordered (pat : Str) : Bool :=
  (List.range pat.length).all fun k =>
    k = 0 || decide (pat.take k ≠ pat.drop (pat.length - k))

/-- One step removed from JS `s.replace(new RegExp(start + "[\\s\\S]*?" + end, "g"), repl)`:
replace every (leftmost, lazy) span running from `mS` to the next `mE` by
`repl`.  Fuel-driven; `replaceSpans` supplies enough fuel. -/
def replaceSpansFuel (mS mE repl : Str) : Nat → Str → Str
  | 0, s => s
  | fuel + 1, s =>
    match splitFirst mS s with
    | none => s
    | some (pre, rest) =>
      match splitFirst mE rest with
      | none => s
      | some (_, post) => pre ++ repl ++ replaceSpansFuel mS mE repl fuel post

/-- Model of the global regex replace in `appendOrUpdateSection` and
`injectContextIntoRules` (`agent-rules.ts:376` and `:653`). -/
def replaceSpans (mS mE repl s : Str) : Str := replaceSpansFuel mS mE repl (s.length + 1) s

/-- Drop a single trailing newline, if present (the greedy `\n?` on the left
edge of the removal regex, seen from the prefix side). -/
def dropOneTrailingNl (s : Str) : Str :=
  if endsWithNl s then s.dropLast else s

/-- Drop all trailing newlines (the greedy `\n*` on the left edge of the
context-clearing regex, seen from the prefix side). -/
def dropAllTrailingNl (s : Str) : Str :=
  (s.reverse.dropWhile fun c => c = '\n').reverse

/-- Drop a single leading newline, if present (the trailing `\n?` of the
removal regexes). -/
def dropOneLeadingNl (s : Str) : Str :=
  match s with
  | '\n' :: t => t
  | _ => s

/-- Model of JS `s.replace(new RegExp("\\n?" + start + "[\\s\\S]*?" + end + "\\n?", "g"), "")`
from `removeIDERules` (`agent-rules.ts:478-482`). -/
def removeSpansFuel (mS mE : Str) : Nat → Str → Str
  | 0, s => s
  | fuel + 1, s =>
    match splitFirst mS s with
    | none => s
    | some (pre, rest) =>
      match splitFirst mE rest with
      | none => s
      | some (_, post) =>
        dropOneTrailingNl pre ++ removeSpansFuel mS mE fuel (dropOneLeadingNl post)

def removeSpans (mS mE s : Str) : Str := removeSpansFuel mS mE (s.length + 1) s

/-- Model of JS `s.replace(new RegExp("\\n*" + start + "[\\s\\S]*?" + end + "\\n?", "g"), "")`
from `clearContextFromRules` (`agent-rules.ts:687-691`). -/
def clearSpansFuel (mS mE : Str) : Nat → Str → Str
  | 0, s => s
  | fuel + 1, s =>
    match splitFirst mS s with
    | none => s
    | some (pre, rest) =>
      match splitFirst mE rest with
      | none => s
      | some (_, post) =>
        dropAllTrailingNl pre ++ clearSpansFuel mS mE fuel (dropOneLeadingNl post)

def clearSpans (mS mE s : Str) : Str := clearSpansFuel mS mE (s.length + 1) s

-- ---------------------------------------------------------------------------
-- Substring-counting lemmas
-- ---------------------------------------------------------------------------

theorem splitFirst_cons (pat : Str) (c : Char) (rest : Str) :
    splitFirst pat (c :: rest) =
      if pat.isPrefixOf (c :: rest) then some (([] : Str), (c :: rest).drop pat.length)
      else
        match splitFirst pat rest with
        | some (pre, post) => some (c :: pre, post)
        | none => none := rfl

theorem prefix_of_prefix_append (pat x b : Str) (h : pat <+: x ++ b)
    (hl : pat.length ≤ x.length) : pat <+: x := by
  have h2 := List.prefix_iff_eq_take.mp h
  rw [List.take_append_of_le_length hl] at h2
  rw [h2]
  exact List.take_prefix _ x

theorem isPrefixOf_append_iff (pat x b : Str) (hx0 : x ≠ [])
    (hs : ∀ t : Str, t <:+ x → t ≠ [] → t.length < pat.length → ¬ pat <+: t ++ b) :
    pat.isPrefixOf (x ++ b) = pat.isPrefixOf x := by
  by_cases h : pat <+: x
  · rw [ List.isPrefixOf_iff_prefix.mpr h,
      List.isPrefixOf_iff_prefix.mpr (h.trans ( List.prefix_append x b))]
  · have hx : pat.isPrefixOf x = false := by
      rw [Bool.eq_false_iff]
      intro hyp
      exact h ( List.isPrefixOf_iff_prefix.mp hyp)
    have hxb : pat.isPrefixOf (x ++ b) = false := by
      rw [Bool.eq_false_iff]
      intro hyp
      have hyp' := List.isPrefixOf_iff_prefix.mp hyp
      rcases le_or_lt pat.length x.length with hl | hl
      · exact h (prefix_of_prefix_append pat x b hyp' hl)
      · exact hs x List.suffix_rfl hx0 hl hyp'
    rw [hx, hxb]

/-- Occurrence count distributes over append when no occurrence straddles
the boundary (master form of the side condition). -/
theorem occCount_append_of (pat a b : Str)
    (hs : ∀ t : Str, t <:+ a → t ≠ [] → t.length < pat.length → ¬ pat <+: t ++ b) :
    occCount pat (a ++ b) = occCount pat a + occCount pat b := by
  induction a with
  | nil => simp [occCount]
  | cons c a' ih =>
    have hs' : ∀ t : Str, t <:+ a' → t ≠ [] → t.length < pat.length → ¬ pat <+: t ++ b := by
      intro t ht
      exact hs t (ht.trans (List.suffix_cons c a'))
    have hpre : pat.isPrefixOf (c :: a' ++ b) = pat.isPrefixOf (c :: a') := by
      refine isPrefixOf_append_iff pat (c :: a') b (List.cons_ne_nil c a') ?_
      intro t ht
      exact hs t ht
    show (if pat.isPrefixOf (c :: (a' ++ b)) then 1 else 0) + occCount pat (a' ++ b) = _
    rw [show c :: (a' ++ b) = (c :: a') ++ b from rfl, hpre, ih hs']
    show _ = (if pat.isPrefixOf (c :: a') then 1 else 0) + occCount pat a' + occCount pat b
    omega

theorem straddle_conclusion (pat t b : Str) (hlt : t.length < pat.length)
    (hp : pat <+: t ++ b) : pat.take t.length = t ∧ pat.drop t.length <+: b := by
  have h1 : pat.take t.length = t := by
    have := List.prefix_iff_eq_take.mp hp
    rw [this, List.take_take, Nat.min_eq_left hlt.le,
      List.take_append_of_le_length (Nat.le_refl _), List.take_length]
  constructor
  · exact h1
  · have h2 : pat = t ++ pat.drop t.length := by
      conv_lhs => rw [← List.take_append_drop t.length pat, h1]
    rw [h2] at hp
    exact (List.prefix_append_right_inj t).mp hp

/-- Append-count lemma, left-side condition: no nonempty proper prefix of
`pat` is a suffix of `a`. -/
theorem occCount_append_left (pat a b : Str)
    (h : ∀ k, 0 < k → k < pat.length → ¬ pat.take k <:+ a) :
    occCount pat (a ++ b) = occCount pat a + occCount pat b := by
  refine occCount_append_of pat a b ?_
  intro t ht h0 hlt hp
  have hc := straddle_conclusion pat t b hlt hp
  have hk : 0 < t.length := List.length_pos.mpr h0
  refine h t.length hk hlt ?_
  rw [hc.1]
  exact ht

/-- Append-count lemma, right-side condition: no nonempty proper suffix of
`pat` is a prefix of `b`. -/
theorem occCount_append_right (pat a b : Str)
    (h : ∀ k, 0 < k → k < pat.length → ¬ pat.drop k <+: b) :
    occCount pat (a ++ b) = occCount pat a + occCount pat b := by
  refine occCount_append_of pat a b ?_
  intro t ht h0 hlt hp
  have hc := straddle_conclusion pat t b hlt hp
  have hk : 0 < t.length := List.length_pos.mpr h0
  exact h t.length hk hlt hc.2

theorem splitFirst_eq_none_iff (pat s : Str) (hp : pat ≠ []) :
    splitFirst pat s = none ↔ occCount pat s = 0 := by
  induction s with
  | nil =>
    simp [splitFirst, occCount, List.isEmpty_iff, hp]
  | cons c rest ih =>
    show (if pat.isPrefixOf (c :: rest) then _ else _) = none ↔
      (if pat.isPrefixOf (c :: rest) then 1 else 0) + occCount pat rest = 0
    by_cases h : pat.isPrefixOf (c :: rest)
    · simp [h]
    · simp only [h, if_false, Bool.false_eq_true, Nat.zero_add]
      rw [← ih]
      cases hsf : splitFirst pat rest with
      | none => simp
      | some pr => cases pr with | mk pre post => simp

theorem containsSub_false_iff (pat s : Str) (hp : pat ≠ []) :
    containsSub pat s = false ↔ occCount pat s = 0 := by
  rw [containsSub]
  constructor
  · intro h
    rw [← splitFirst_eq_none_iff pat s hp]
    cases hsf : splitFirst pat s with
    | none => rfl
    | some pr =>
      rw [hsf] at h
      simp [Option.isSome] at h
  · intro h
    rw [← splitFirst_eq_none_iff pat s hp] at h
    rw [h]
    rfl

theorem unbordered_spec (pat : Str) (h : unbordered pat = true) :
    ∀ k, 0 < k → k < pat.length → pat.take k ≠ pat.drop (pat.length - k) := by
  intro k hk hklt
  have hh := List.all_eq_true.mp h k (List.mem_range.mpr hklt)
  simp only [Bool.or_eq_true, decide_eq_true_eq] at hh
  rcases hh with h0 | hne
  · exact absurd h0 (by omega)
  · exact hne

/-- The leftmost occurrence of an unbordered pattern in `u ++ pat ++ v`,
where `u` is occurrence-free, is the explicit one. -/
theorem splitFirst_clean_append (pat u v : Str) (hp : pat ≠ [])
    (hu : occCount pat u = 0) (hub : unbordered pat = true) :
    splitFirst pat (u ++ pat ++ v) = some (u, v) := by
  induction u with
  | nil =>
    cases pat with
    | nil => exact absurd rfl hp
    | cons p0 pt =>
      have hpref : (p0 :: pt).isPrefixOf (p0 :: (pt ++ v)) = true :=
        List.isPrefixOf_iff_prefix.mpr ( List.prefix_append _ v)
      show splitFirst (p0 :: pt) (p0 :: (pt ++ v)) = some ([], v)
      rw [splitFirst_cons, hpref]
      simp only [if_true]
      rw [show p0 :: (pt ++ v) = (p0 :: pt) ++ v from rfl, List.drop_left]
  | cons c u' ih =>
    have hu' : occCount pat u' = 0 := by
      have hifz : (if pat.isPrefixOf (c :: u') then 1 else 0) + occCount pat u' = 0 := hu
      omega
    have hnotpref : ¬ pat <+: c :: u' := by
      intro hyp
      have hifz : (if pat.isPrefixOf (c :: u') then 1 else 0) + occCount pat u' = 0 := hu
      rw [ List.isPrefixOf_iff_prefix.mpr hyp] at hifz
      simp at hifz
    have hnot : pat.isPrefixOf (c :: (u' ++ (pat ++ v))) = false := by
      rw [Bool.eq_false_iff]
      intro hyp
      have hyp' := List.isPrefixOf_iff_prefix.mp hyp
      rw [show c :: (u' ++ (pat ++ v)) = (c :: u') ++ (pat ++ v) from rfl] at hyp'
      rcases le_or_lt pat.length (c :: u').length with hl | hl
      · exact hnotpref (prefix_of_prefix_append pat (c :: u') (pat ++ v) hyp' hl)
      · have hc := straddle_conclusion pat (c :: u') (pat ++ v) hl hyp'
        have hdlen : (pat.drop (c :: u').length).length ≤ pat.length := by
          rw [List.length_drop]
          omega
        have hdp : pat.drop (c :: u').length <+: pat :=
          prefix_of_prefix_append _ pat v hc.2 hdlen
        have hdeq : pat.drop (c :: u').length =
            pat.take (pat.length - (c :: u').length) := by
          have h3 := List.prefix_iff_eq_take.mp hdp
          rw [h3, List.length_drop]
        have hk1 : 0 < pat.length - (c :: u').length := by omega
        have hk2 : pat.length - (c :: u').length < pat.length := by
          have hc0 : 0 < (c :: u').length := List.length_pos.mpr (List.cons_ne_nil c u')
          omega
        refine unbordered_spec pat hub (pat.length - (c :: u').length) hk1 hk2 ?_
        rw [← hdeq]
        congr 1
        omega
    have hrw : c :: u' ++ pat ++ v = c :: (u' ++ (pat ++ v)) := by
      simp [List.append_assoc]
    rw [hrw, splitFirst_cons, hnot]
    simp only [Bool.false_eq_true, if_false]
    rw [show u' ++ (pat ++ v) = u' ++ pat ++ v from (List.append_assoc u' pat v).symm,
      ih hu']

-- ---------------------------------------------------------------------------
-- Markers and rule content templates (`agent-rules.ts:55-198, 607-610`)
-- ---------------------------------------------------------------------------

/-- Instruction start marker used by every append-within-markers target. -/
def mStart : Str := str "<!-- valyrianctx:start -->"

/-- Instruction end marker. -/
def mEnd : Str := str "<!-- valyrianctx:end -->"

/-- `CONTEXT_MARKERS.start` (`agent-rules.ts:608`). -/
def ctxStart : Str := str "<!-- valyrianctx:context:start -->"

/-- `CONTEXT_MARKERS.end` (`agent-rules.ts:609`). -/
def ctxEnd : Str := str "<!-- valyrianctx:context:end -->"

def coreP1 : Str := str "## MANDATORY: Valyrian Context Integration\n\nThis project uses `valyrianctx` to persist coding context across sessions.\nYou MUST follow these rules. They are not optional.\n\n### RULE 1: Resume context FIRST (mandatory)\n\n**Your FIRST action in EVERY conversation — before doing anything else — MUST be:**\n\n```bash\nvalyrianctx resume --stdout\n```\n\n"

def coreP2 : Str := str "- If it returns context: read it, internalize it, then tell the user: \"I've loaded context from your last session. You were working on [task], left off at [state]. Continuing from there.\"\n- If it returns \"No context found\": say \"No previous context found, starting fresh.\" and proceed normally.\n- **Do NOT skip this step.** Do NOT wait for the user to ask. Run it immediately.\n"

def coreP3 : Str := str "- **Do NOT re-decide** things that were already decided unless the user explicitly asks to revisit them.\n\n### RULE 2: Save context BEFORE finishing (mandatory)\n\n**Before you finish ANY task, stop working, or hand control back to the user, you MUST save context.**\n\n1. Analyze the ENTIRE conversation and extract:\n   - **task**: What was worked on (one-line summary)\n"

def coreP4 : Str := str "   - **approaches**: What was tried, including FAILED attempts (critical — prevents repeating mistakes)\n   - **decisions**: Architectural/design decisions with reasoning (\"chose X because Y\")\n   - **state**: Exactly where things stand right now\n   - **nextSteps**: What should happen next\n   - **blockers**: Anything blocking progress (omit flag if none)\n\n2. Run:\n```bash\n"

def coreP5 : Str := str "valyrianctx save \"TASK_SUMMARY\" \\\n  --approaches \"approach 1;; approach 2\" \\\n  --decisions \"decision 1;; decision 2\" \\\n  --state \"Current state description\" \\\n  --next-steps \"step 1;; step 2\" \\\n  --blockers \"blocker 1\"\n```\n\n3. Confirm to the user what was saved.\n\n**Do NOT ask the user to summarize. Extract it yourself from the conversation.**\n"

def coreP6 : Str := str "**Do NOT skip this. Context that is not saved is context that dies.**\n\n### RULE 3: Respond to explicit commands\n\n- When the user says `/save-context` or \"save context\": execute Rule 2 immediately.\n- When the user says `/resume-context` or \"resume context\": execute Rule 1 immediately.\n\n### Quality standards for saved context\n\n"

def coreP7 : Str := str "- **Be specific**: \"Using RS256 for JWT signing with 24h expiry\" not \"configured auth\"\n- **Include failures**: \"Tried approach X, failed because Y\" is extremely valuable\n- **Capture reasoning**: \"Chose Postgres over MongoDB because we need cross-table transactions\""

/-- The body of the `CORE_INSTRUCTIONS` template literal (`agent-rules.ts:55-111`),
spelled as a concatenation of line-aligned pieces. -/
def coreBody : Str := coreP1 ++ coreP2 ++ coreP3 ++ coreP4 ++ coreP5 ++ coreP6 ++ coreP7

/-- The raw `CORE_INSTRUCTIONS` template literal before the `.trim()`. -/
def coreRaw : Str := str "\n" ++ coreBody ++ str "\n"

/-- `CORE_INSTRUCTIONS` (`agent-rules.ts:55-111`): the trimmed template. -/
def coreInstructions : Str := jsTrim coreRaw

def claudeTail : Str := str "\n\n### Claude Code: MCP Integration (preferred over CLI)\nIf the valyrianctx MCP server is configured, use MCP tools instead of CLI commands:\n- `valyrianctx_resume` — Use this for Rule 1 (returns context as structured text)\n- `valyrianctx_save` — Use this for Rule 2 (saves with structured fields)\n- `valyrianctx_log` — View context history\n"

/-- Output of `generateClaudeCodeRules` (`agent-rules.ts:113-125`). -/
def generateClaudeCodeRules : Str :=
  jsTrim (str "\n" ++ mStart ++ str "\n" ++ coreInstructions ++ claudeTail ++ mEnd ++ str "\n")

def cursorPre : Str := str "---\ndescription: \"MANDATORY: Valyrian Context — resume context on start, save context before finishing\"\nglobs: [\"**/*\"]\nalwaysApply: true\n---\n\n"

def cursorTail : Str := str "\n\n### Cursor: MCP Integration (preferred over CLI)\nIf the valyrianctx MCP server is configured in `.cursor/mcp.json`, use MCP tools instead of CLI:\n- `valyrianctx_resume` — Use this for Rule 1\n- `valyrianctx_save` — Use this for Rule 2\n- `valyrianctx_log` — View history\n"

/-- Output of `generateCursorRules` (`agent-rules.ts:127-142`). -/
def generateCursorRules : Str := jsTrim (cursorPre ++ coreInstructions ++ cursorTail)

def antiTail1 : Str := str "\n\n### Antigravity/Gemini: Additional notes\n- A git post-commit hook is installed that auto-saves context on every commit via `valyrianctx save --auto`.\n- The `--auto` flag reads your `task.md`, `implementation_plan.md`, and `walkthrough.md` artifacts directly.\n"

def antiTail2 : Str := str "- Even with the hook, you MUST still run the full structured save (Rule 2) before ending a session — the hook capture is a safety net, not a replacement.\n"

/-- Output of `generateAntigravityRules` (`agent-rules.ts:144-155`). -/
def generateAntigravityRules : Str :=
  jsTrim (str "\n" ++ mStart ++ str "\n" ++ coreInstructions ++ antiTail1 ++ antiTail2 ++ mEnd ++ str "\n")

/-- Output of `generateGeminiDirectoryRules` (`agent-rules.ts:157-166`). -/
def generateGeminiDirectoryRules : Str :=
  jsTrim (coreInstructions ++ antiTail1 ++ antiTail2)

def openTail : Str := str "\n\n### OpenCode: MCP Integration (preferred over CLI)\nIf the valyrianctx MCP server is configured, use MCP tools instead of CLI commands for Rule 1 and Rule 2.\n"

/-- Output of `generateOpenCodeRules` (`agent-rules.ts:168-177`). -/
def generateOpenCodeRules : Str :=
  jsTrim (str "\n" ++ mStart ++ str "\n" ++ coreInstructions ++ openTail ++ mEnd ++ str "\n")

def traePre : Str := str "---\ndescription: \"MANDATORY: Valyrian Context — resume context on start, save context before finishing\"\n---\n\n"

/-- Output of `generateTraeRules` (`agent-rules.ts:179-186`). -/
def generateTraeRules : Str := jsTrim (traePre ++ coreInstructions ++ str "\n")

def warpPre : Str := str "# MANDATORY: Valyrian Context Integration\n\n"

def warpTail : Str := str "\n\n### Warp: Usage notes\n- Warp may not read this file automatically. The human operator should run `valyrianctx resume --stdout` at session start and paste the output.\n- Before ending a session, run `valyrianctx save --auto` or use the full structured save command above.\n- A git post-commit hook is installed as a safety net — context is auto-captured on every commit.\n"

/-- Output of `generateWarpRules` (`agent-rules.ts:188-198`). -/
def generateWarpRules : Str := jsTrim (warpPre ++ coreInstructions ++ warpTail)

-- ---------------------------------------------------------------------------
-- JSON values and objects (for MCP configuration files)
-- ---------------------------------------------------------------------------

/-- A JSON value, as produced by `JSON.parse`.  Objects are ordered key/value
lists (JavaScript objects preserve insertion order and have unique keys). -/
inductive Json where
  | null
  | bool (b : Bool)
  | num (n : Int)
  | str (s : Str)
  | arr (elems : List Json)
  | obj (fields : List (Str × Json))
deriving Repr

abbrev JsonObj := List (Str × Json)

/-- JavaScript truthiness of a value (`undefined` is modelled by a missing
key, i.e. `none` at lookup sites). -/
def jsTruthy : Json → Bool
  | .null => false
  | .bool b => b
  | .num n => n ≠ 0
  | .str s => !s.isEmpty
  | .arr _ => true
  | .obj _ => true

/-- First-match key lookup on a JS object. -/
def objLookup (o : JsonObj) (k : Str) : Option Json :=
  match o with
  | [] => none
  | (k', v) :: rest => if k' = k then some v else objLookup rest k

/-- JS property assignment `o[k] = v` / spread override: replaces the value
in place if the key exists (preserving position), otherwise appends. -/
def objSet (o : JsonObj) (k : Str) (v : Json) : JsonObj :=
  if (objLookup o k).isSome then
    o.map fun kv => if kv.1 = k then (k, v) else kv
  else o ++ [(k, v)]

/-- JS `delete o[k]`. -/
def objDelete (o : JsonObj) (k : Str) : JsonObj :=
  o.filter fun kv => kv.1 ≠ k

/-- JS object spread `{...a, ...b}`: keys of `a` in order with values
overridden by `b`, then the keys of `b` not in `a`, in order. -/
def objSpread (a b : JsonObj) : JsonObj :=
  (a.map fun kv => match objLookup b kv.1 with
    | some v => (kv.1, v)
    | none => kv) ++
  b.filter fun kv => (objLookup a kv.1).isNone

-- ---------------------------------------------------------------------------
-- The rule-target registry (`agent-rules.ts:204-287`)
-- ---------------------------------------------------------------------------

/-- One entry of the rule-target registry (`IDERuleConfig`).  `generateContent`
and `generateMcpConfig` are constant closures in the source, so they are
embedded as the values they return (`content`, `mcpConfig`). -/
structure IDERuleConfig where
  id : Str
  name : Str
  filePath : Str
  appendToExisting : Bool
  markerStart : Str
  markerEnd : Str
  content : Str
  gitignore : Bool
  mcpConfigPath : Option Str
  mcpConfig : Option JsonObj

/-- The value of the `valyrianctx` server entry written for Claude Code
(`agent-rules.ts:215-221`). -/
def claudeMcpEntry : Json := Json.obj [(str "command", Json.str (str "valyrianctx-mcp"))]

/-- The MCP configuration fragment generated for Claude Code. -/
def claudeMcpFrag : JsonObj :=
  [(str "mcpServers", Json.obj [(str "valyrianctx", claudeMcpEntry)])]

/-- The value of the `valyrianctx` server entry written for Cursor
(`agent-rules.ts:232-239`). -/
def cursorMcpEntry : Json :=
  Json.obj [(str "command", Json.str (str "npx")),
    (str "args", Json.arr [Json.str (str "valyrianctx-mcp")])]

/-- The MCP configuration fragment generated for Cursor. -/
def cursorMcpFrag : JsonObj :=
  [(str "mcpServers", Json.obj [(str "valyrianctx", cursorMcpEntry)])]

def claudeCodeRule : IDERuleConfig :=
  { id := str "claude-code", name := str "Claude Code", filePath := str "CLAUDE.md",
    appendToExisting := true, markerStart := mStart, markerEnd := mEnd,
    content := generateClaudeCodeRules, gitignore := false,
    mcpConfigPath := some (str ".claude/settings.local.json"),
    mcpConfig := some claudeMcpFrag }

def cursorRule : IDERuleConfig :=
  { id := str "cursor", name := str "Cursor", filePath := str ".cursor/rules/valyrianctx.mdc",
    appendToExisting := false, markerStart := [], markerEnd := [],
    content := generateCursorRules, gitignore := true,
    mcpConfigPath := some (str ".cursor/mcp.json"),
    mcpConfig := some cursorMcpFrag }

def antigravityRule : IDERuleConfig :=
  { id := str "antigravity", name := str "Antigravity/Gemini", filePath := str "GEMINI.md",
    appendToExisting := true, markerStart := mStart, markerEnd := mEnd,
    content := generateAntigravityRules, gitignore := false,
    mcpConfigPath := none, mcpConfig := none }

def antigravityDirRule : IDERuleConfig :=
  { id := str "antigravity-dir", name := str "Antigravity/Gemini (.gemini/)",
    filePath := str ".gemini/valyrianctx.md",
    appendToExisting := false, markerStart := [], markerEnd := [],
    content := generateGeminiDirectoryRules, gitignore := true,
    mcpConfigPath := none, mcpConfig := none }

def opencodeRule : IDERuleConfig :=
  { id := str "opencode", name := str "OpenCode", filePath := str "AGENTS.md",
    appendToExisting := true, markerStart := mStart, markerEnd := mEnd,
    content := generateOpenCodeRules, gitignore := false,
    mcpConfigPath := none, mcpConfig := none }

def traeRule : IDERuleConfig :=
  { id := str "trae", name := str "Trae", filePath := str ".trae/rules/valyrianctx.md",
    appendToExisting := false, markerStart := [], markerEnd := [],
    content := generateTraeRules, gitignore := true,
    mcpConfigPath := none, mcpConfig := none }

def warpRule : IDERuleConfig :=
  { id := str "warp", name := str "Warp", filePath := str ".warp/valyrianctx.md",
    appendToExisting := false, markerStart := [], markerEnd := [],
    content := generateWarpRules, gitignore := true,
    mcpConfigPath := none, mcpConfig := none }

/-- `getAllIDERules` (`agent-rules.ts:204-287`). -/
def getAllIDERules : List IDERuleConfig :=
  [claudeCodeRule, cursorRule, antigravityRule, antigravityDirRule,
   opencodeRule, traeRule, warpRule]

-- ---------------------------------------------------------------------------
-- Section synchronizer (`agent-rules.ts:361-389, 465-536, 622-697`)
-- ---------------------------------------------------------------------------

inductive WriteAction where
  | created
  | updated
  | appended
deriving Repr, DecidableEq

/-- `appendOrUpdateSection` (`agent-rules.ts:361-389`) acting on the contents
of one file: `none` = file does not exist. -/
def appendOrUpdateSection (existing : Option Str) (content : Str)
    (markStart markEnd : Str) : Str × WriteAction :=
  match existing with
  | none => (content ++ str "\n", .created)
  | some ex =>
    if containsSub markStart ex then
      (replaceSpans markStart markEnd content ex, .updated)
    else
      let sep : Str := if endsWithNl ex then str "\n" else str "\n\n"
      (ex ++ sep ++ content ++ str "\n", .appended)

/-- The shared-file branch of `removeIDERules` (`agent-rules.ts:474-491`)
acting on the contents of one existing file; `none` = file deleted. -/
def removeSectionFromFile (s : Str) (markStart markEnd : Str) : Option Str :=
  if containsSub markStart s then
    let updated := jsTrim (removeSpans markStart markEnd s)
    if updated.length > 0 then some (updated ++ str "\n") else none
  else some s

/-- The context section assembled by `injectContextIntoRules`
(`agent-rules.ts:629-640`): the `join("\n")` of the fixed line list. -/
def contextSection (contextMarkdown : Str) : Str :=
  ctxStart ++ str "\n\n## Session Context (auto-synced by valyrianctx)\n\n> This section is auto-updated after every save and branch switch.\n> The AI reads this automatically — no commands needed to resume.\n\n" ++
    contextMarkdown ++ str "\n\n" ++ ctxEnd

/-- The per-file body of `injectContextIntoRules` (`agent-rules.ts:649-662`):
update the context span in place, or append it. -/
def injectIntoFile (sec : Str) (content : Str) : Str :=
  if containsSub ctxStart content then
    replaceSpans ctxStart ctxEnd sec content
  else
    let sep : Str := if endsWithNl content then str "\n" else str "\n\n"
    content ++ sep ++ sec ++ str "\n"

/-- The per-file body of `clearContextFromRules` (`agent-rules.ts:684-692`):
strip every context span, then `trimEnd()` and append a newline. -/
def clearContextFromFile (content : Str) : Str :=
  jsTrimEnd (clearSpans ctxStart ctxEnd content) ++ str "\n"

-- ---------------------------------------------------------------------------
-- File systems
-- ---------------------------------------------------------------------------

/-- A file's contents: rule files hold text, MCP configuration files hold a
JSON document. -/
inductive FileVal where
  | text (s : Str)
  | json (o : JsonObj)
deriving Repr

/-- A file system: paths to contents; `none` = absent. -/
def FS := Str → Option FileVal

def fsWrite (fs : FS) (p : Str) (v : FileVal) : FS :=
  fun q => if q = p then some v else fs q

def fsDelete (fs : FS) (p : Str) : FS :=
  fun q => if q = p then none else fs q

/-- `injectContextIntoRules` (`agent-rules.ts:622-668`): for every gitignored
target whose rule file exists, synchronize the context span; returns the
file system and the count of touched files. -/
def injectContextIntoRules (fs : FS) (contextMarkdown : Str) : FS × Nat :=
  let sec := contextSection contextMarkdown
  getAllIDERules.foldl
    (fun (acc : FS × Nat) rule =>
      if rule.gitignore then
        match acc.1 rule.filePath with
        | some (.text content) =>
          (fsWrite acc.1 rule.filePath (.text (injectIntoFile sec content)), acc.2 + 1)
        | some (.json _) => acc
        | none => acc
      else acc)
    (fs, 0)

/-- `clearContextFromRules` (`agent-rules.ts:674-697`). -/
def clearContextFromRules (fs : FS) : FS × Nat :=
  getAllIDERules.foldl
    (fun (acc : FS × Nat) rule =>
      if rule.gitignore then
        match acc.1 rule.filePath with
        | some (.text content) =>
          if containsSub ctxStart content then
            (fsWrite acc.1 rule.filePath (.text (clearContextFromFile content)), acc.2 + 1)
          else acc
        | some (.json _) => acc
        | none => acc
      else acc)
    (fs, 0)

-- ---------------------------------------------------------------------------
-- Trim edge lemmas
-- ---------------------------------------------------------------------------

theorem strNl_eq : str "\n" = ['\n'] := rfl

theorem jsTrimStart_cons_ws (c : Char) (t : Str) (h : isWs c = true) :
    jsTrimStart (c :: t) = jsTrimStart t := by
  simp [jsTrimStart, List.dropWhile_cons, h]

theorem jsTrimStart_cons_not (c : Char) (t : Str) (h : isWs c = false) :
    jsTrimStart (c :: t) = c :: t := by
  simp [jsTrimStart, List.dropWhile_cons, h]

theorem jsTrimStart_append_head (x y : Str) (c : Char) (h : x.head? = some c)
    (hc : isWs c = false) : jsTrimStart (x ++ y) = x ++ y := by
  cases x with
  | nil => simp at h
  | cons a t =>
    have hac : a = c := by simpa using h
    subst hac
    exact jsTrimStart_cons_not a (t ++ y) hc

theorem jsTrimEnd_append_ws (x : Str) (c : Char) (h : isWs c = true) :
    jsTrimEnd (x ++ [c]) = jsTrimEnd x := by
  simp [jsTrimEnd, List.reverse_append, List.dropWhile_cons, h]

theorem jsTrimEnd_eq_self (s : Str) (c : Char) (h : s.getLast? = some c)
    (hc : isWs c = false) : jsTrimEnd s = s := by
  have hrev : s.reverse.head? = some c := by
    rw [List.head?_reverse]
    exact h
  cases hr : s.reverse with
  | nil =>
    rw [hr] at hrev
    simp at hrev
  | cons a t =>
    rw [hr] at hrev
    have hac : a = c := by simpa using hrev
    subst hac
    have hs : s = t.reverse ++ [a] := by
      rw [← List.reverse_reverse s, hr, List.reverse_cons]
    rw [jsTrimEnd, hr]
    simp [List.dropWhile_cons, hc]
    exact hs.symm

theorem getLast?_append_right (x y : Str) (hy : y ≠ []) :
    (x ++ y).getLast? = y.getLast? := by
  rw [← List.head?_reverse, ← List.head?_reverse, List.reverse_append]
  cases hr : y.reverse with
  | nil =>
    exact absurd (by simpa using hr) hy
  | cons a t => rfl

theorem suffix_transfer (t x y : Str) (h : t <:+ x ++ y) (hl : t.length ≤ y.length) :
    t <:+ y := by
  obtain ⟨w, hw⟩ := h
  have hlen : w.length = x.length + y.length - t.length := by
    have := congrArg List.length hw
    simp at this
    omega
  have hdrop : t = (x ++ y).drop w.length := by
    rw [← hw, List.drop_left]
  have hdrop2 : (x ++ y).drop w.length = y.drop (w.length - x.length) := by
    rw [List.drop_append_eq_append_drop]
    have hxe : x.drop w.length = [] := by
      apply List.drop_eq_nil_of_le
      omega
    rw [hxe, List.nil_append]
  rw [hdrop, hdrop2]
  exact List.drop_suffix _ y

-- ---------------------------------------------------------------------------
-- Piece cleanliness: decidable per-piece facts that glue into facts about
-- the full generated contents
-- ---------------------------------------------------------------------------

/-- `suf` is a suffix of `s` (computable form). -/
def endsWithSub (suf s : Str) : Bool :=
  decide (suf.length ≤ s.length) && decide (s.drop (s.length - suf.length) = suf)

theorem endsWithSub_iff (suf s : Str) : endsWithSub suf s = true ↔ suf <:+ s := by
  rw [endsWithSub, Bool.and_eq_true, decide_eq_true_iff, decide_eq_true_iff]
  constructor
  · rintro ⟨hle, hdrop⟩
    rw [← hdrop]
    exact List.drop_suffix _ s
  · intro h
    obtain ⟨w, hw⟩ := h
    have hlen : w.length + suf.length = s.length := by
      have := congrArg List.length hw
      simpa using this
    constructor
    · omega
    · have hws : s.length - suf.length = w.length := by omega
      rw [hws, ← hw, List.drop_left]

/-- No nonempty proper prefix of `pat` is a suffix of `p`. -/
def noTakeSuffix (pat p : Str) : Bool :=
  (List.range pat.length).all fun k => k = 0 || !(endsWithSub (pat.take k) p)

theorem noTakeSuffix_spec (pat p : Str) (h : noTakeSuffix pat p = true) :
    ∀ k, 0 < k → k < pat.length → ¬ pat.take k <:+ p := by
  intro k hk hklt hsuf
  have hh := List.all_eq_true.mp h k (List.mem_range.mpr hklt)
  simp only [Bool.or_eq_true, decide_eq_true_eq, Bool.not_eq_true'] at hh
  rcases hh with h0 | hne
  · omega
  · rw [Bool.eq_false_iff] at hne
    exact hne ((endsWithSub_iff _ _).mpr hsuf)

/-- `p` contains no occurrence of `pat` and ends with no partial occurrence. -/
def pieceClean (pat p : Str) : Bool :=
  decide (occCount pat p = 0) && noTakeSuffix pat p

theorem pieceClean_occ (pat p : Str) (h : pieceClean pat p = true) :
    occCount pat p = 0 := by
  rw [pieceClean, Bool.and_eq_true, decide_eq_true_iff] at h
  exact h.1

theorem pieceClean_take (pat p : Str) (h : pieceClean pat p = true) :
    ∀ k, 0 < k → k < pat.length → ¬ pat.take k <:+ p := by
  rw [pieceClean, Bool.and_eq_true] at h
  exact noTakeSuffix_spec pat p h.2

/-- Clean with respect to all four markers. -/
def pieceCleanAll (p : Str) : Bool :=
  pieceClean mStart p && pieceClean mEnd p && pieceClean ctxStart p && pieceClean ctxEnd p

theorem occCount_join_zero (pat : Str) (ps : List Str)
    (h : ∀ p ∈ ps, pieceClean pat p = true) : occCount pat ps.flatten = 0 := by
  induction ps with
  | nil => rfl
  | cons p ps ih =>
    rw [List.flatten_cons]
    rw [occCount_append_left pat p ps.flatten
      (pieceClean_take pat p (h p (List.mem_cons_self p ps)))]
    rw [pieceClean_occ pat p (h p (List.mem_cons_self p ps)),
      ih fun q hq => h q (List.mem_cons_of_mem p hq)]

theorem noTakeSuffix_append_last (pat x r : Str) (h : pieceClean pat r = true)
    (hlen : pat.length ≤ r.length + 1) :
    ∀ k, 0 < k → k < pat.length → ¬ pat.take k <:+ x ++ r := by
  intro k hk hklt hsuf
  have hlt : (pat.take k).length ≤ r.length := by
    rw [List.length_take]
    omega
  exact pieceClean_take pat r h k hk hklt (suffix_transfer _ x r hsuf hlt)

/-- An unbordered pattern has no nonempty proper prefix among its own
suffixes, so occurrences counted from its own left edge behave. -/
theorem unbordered_noTakeSuffix_self (pat : Str) (hub : unbordered pat = true) :
    ∀ k, 0 < k → k < pat.length → ¬ pat.take k <:+ pat := by
  intro k hk hklt hsuf
  have hlen : (pat.take k).length = k := by
    rw [List.length_take]
    omega
  obtain ⟨w, hw⟩ := hsuf
  have hwlen : w.length = pat.length - k := by
    have hlw := congrArg List.length hw
    simp at hlw
    omega
  have hd : pat.drop (pat.length - k) = pat.take k := by
    rw [← hwlen]
    conv_lhs => rw [← hw]
    rw [List.drop_left]
  exact unbordered_spec pat hub k hk hklt hd.symm

theorem occCount_self_append (pat rest : Str) (hub : unbordered pat = true)
    (hone : occCount pat pat = 1) (hz : occCount pat rest = 0) :
    occCount pat (pat ++ rest) = 1 := by
  rw [occCount_append_left pat pat rest (unbordered_noTakeSuffix_self pat hub), hone, hz]

theorem pieceCleanAll_mStart (p : Str) (h : pieceCleanAll p = true) :
    pieceClean mStart p = true := by
  rw [pieceCleanAll] at h
  simp only [Bool.and_eq_true] at h
  exact h.1.1.1

theorem pieceCleanAll_mEnd (p : Str) (h : pieceCleanAll p = true) :
    pieceClean mEnd p = true := by
  rw [pieceCleanAll] at h
  simp only [Bool.and_eq_true] at h
  exact h.1.1.2

theorem pieceCleanAll_ctxStart (p : Str) (h : pieceCleanAll p = true) :
    pieceClean ctxStart p = true := by
  rw [pieceCleanAll] at h
  simp only [Bool.and_eq_true] at h
  exact h.1.2

theorem pieceCleanAll_ctxEnd (p : Str) (h : pieceCleanAll p = true) :
    pieceClean ctxEnd p = true := by
  rw [pieceCleanAll] at h
  simp only [Bool.and_eq_true] at h
  exact h.2

-- Concrete, machine-checked facts about the four markers.

theorem unbordered_mStart : unbordered mStart = true := by decide

theorem unbordered_mEnd : unbordered mEnd = true := by decide

theorem unbordered_ctxStart : unbordered ctxStart = true := by decide

theorem unbordered_ctxEnd : unbordered ctxEnd = true := by decide

theorem occCount_mStart_self : occCount mStart mStart = 1 := by decide

theorem occCount_mEnd_self : occCount mEnd mEnd = 1 := by decide

theorem occCount_ctxStart_self : occCount ctxStart ctxStart = 1 := by decide

theorem occCount_ctxEnd_self : occCount ctxEnd ctxEnd = 1 := by decide

theorem clean_mEnd_mStart : pieceClean mEnd mStart = true := by decide

theorem clean_ctxStart_mStart : pieceClean ctxStart mStart = true := by decide

theorem clean_ctxEnd_mStart : pieceClean ctxEnd mStart = true := by decide

theorem clean_mStart_mEnd : pieceClean mStart mEnd = true := by decide

theorem clean_ctxStart_mEnd : pieceClean ctxStart mEnd = true := by decide

theorem clean_ctxEnd_mEnd : pieceClean ctxEnd mEnd = true := by decide

theorem clean_mStart_ctxStart : pieceClean mStart ctxStart = true := by decide

theorem clean_mEnd_ctxStart : pieceClean mEnd ctxStart = true := by decide

theorem clean_ctxEnd_ctxStart : pieceClean ctxEnd ctxStart = true := by decide

theorem clean_mStart_ctxEnd : pieceClean mStart ctxEnd = true := by decide

theorem clean_mEnd_ctxEnd : pieceClean mEnd ctxEnd = true := by decide

theorem clean_ctxStart_ctxEnd : pieceClean ctxStart ctxEnd = true := by decide

-- Concrete, machine-checked facts about the content pieces.

theorem cleanNl : pieceCleanAll (str "\n") = true := by decide

theorem cleanCoreP1 : pieceCleanAll coreP1 = true := by decide

theorem cleanCoreP2 : pieceCleanAll coreP2 = true := by decide

theorem cleanCoreP3 : pieceCleanAll coreP3 = true := by decide

theorem cleanCoreP4 : pieceCleanAll coreP4 = true := by decide

theorem cleanCoreP5 : pieceCleanAll coreP5 = true := by decide

theorem cleanCoreP6 : pieceCleanAll coreP6 = true := by decide

theorem cleanCoreP7 : pieceCleanAll coreP7 = true := by decide

theorem cleanClaudeTail : pieceCleanAll claudeTail = true := by decide

theorem cleanAntiTail1 : pieceCleanAll antiTail1 = true := by decide

theorem cleanAntiTail2 : pieceCleanAll antiTail2 = true := by decide

theorem cleanOpenTail : pieceCleanAll openTail = true := by decide

-- ---------------------------------------------------------------------------
-- Shape of the three append-within-markers contents
-- ---------------------------------------------------------------------------

/-- The text between the markers in the Claude Code rules. -/
def claudeMid : Str := str "\n" ++ coreBody ++ claudeTail

/-- The text between the markers in the Antigravity rules. -/
def antiMid : Str := str "\n" ++ coreBody ++ antiTail1 ++ antiTail2

/-- The text between the markers in the OpenCode rules. -/
def openMid : Str := str "\n" ++ coreBody ++ openTail

theorem coreInstructions_eq : coreInstructions = coreBody := by
  rw [coreInstructions, coreRaw, jsTrim, strNl_eq]
  rw [show ['\n'] ++ coreBody ++ ['\n'] = '\n' :: (coreBody ++ ['\n']) by simp]
  rw [jsTrimStart_cons_ws '\n' _ (by decide)]
  rw [jsTrimStart_append_head coreBody ['\n'] '#' rfl (by decide)]
  rw [jsTrimEnd_append_ws coreBody '\n' (by decide)]
  have h7 : coreBody =
      (coreP1 ++ coreP2 ++ coreP3 ++ coreP4 ++ coreP5 ++ coreP6) ++ coreP7 := by
    simp [coreBody, List.append_assoc]
  have hlast : coreBody.getLast? = some '\"' := by
    rw [h7, getLast?_append_right _ _ (by decide)]
    rfl
  exact jsTrimEnd_eq_self coreBody '\"' hlast (by decide)

theorem content_shape (tail : Str) :
    jsTrim (str "\n" ++ mStart ++ str "\n" ++ coreInstructions ++ tail ++ mEnd ++ str "\n") =
      mStart ++ (str "\n" ++ coreBody ++ tail) ++ mEnd := by
  rw [coreInstructions_eq, jsTrim, strNl_eq]
  rw [show ['\n'] ++ mStart ++ ['\n'] ++ coreBody ++ tail ++ mEnd ++ ['\n'] =
    '\n' :: (mStart ++ (['\n'] ++ coreBody ++ tail ++ mEnd ++ ['\n'])) by simp]
  rw [jsTrimStart_cons_ws '\n' _ (by decide)]
  rw [jsTrimStart_append_head mStart _ '<' rfl (by decide)]
  rw [show mStart ++ (['\n'] ++ coreBody ++ tail ++ mEnd ++ ['\n']) =
    (mStart ++ ['\n'] ++ coreBody ++ tail ++ mEnd) ++ ['\n'] by simp]
  rw [jsTrimEnd_append_ws _ '\n' (by decide)]
  have hre : mStart ++ ['\n'] ++ coreBody ++ tail ++ mEnd =
      (mStart ++ ['\n'] ++ coreBody ++ tail) ++ mEnd := by
    simp [List.append_assoc]
  have hlast2 : (mStart ++ ['\n'] ++ coreBody ++ tail ++ mEnd).getLast? = some '>' := by
    rw [hre, getLast?_append_right _ _ (by decide)]
    rfl
  rw [jsTrimEnd_eq_self _ '>' hlast2 (by decide)]
  simp [strNl_eq, List.append_assoc]

theorem claudeContent_eq : generateClaudeCodeRules = mStart ++ claudeMid ++ mEnd := by
  rw [generateClaudeCodeRules, claudeMid]
  exact content_shape claudeTail

theorem antiContent_eq : generateAntigravityRules = mStart ++ antiMid ++ mEnd := by
  rw [generateAntigravityRules, antiMid]
  have h := content_shape (antiTail1 ++ antiTail2)
  rw [show str "\n" ++ mStart ++ str "\n" ++ coreInstructions ++ antiTail1 ++ antiTail2 ++
      mEnd ++ str "\n" =
    str "\n" ++ mStart ++ str "\n" ++ coreInstructions ++ (antiTail1 ++ antiTail2) ++
      mEnd ++ str "\n" by simp [List.append_assoc]]
  rw [h]
  simp [List.append_assoc]

theorem openContent_eq : generateOpenCodeRules = mStart ++ openMid ++ mEnd := by
  rw [generateOpenCodeRules, openMid]
  exact content_shape openTail

/-- The between-markers text of an append-within-markers content: free of all
four markers, and free of partial marker occurrences at its right edge. -/
def MidGood (mid : Str) : Prop :=
  occCount mStart mid = 0 ∧ occCount mEnd mid = 0 ∧
  occCount ctxStart mid = 0 ∧ occCount ctxEnd mid = 0 ∧
  (∀ k, 0 < k → k < mStart.length → ¬ mStart.take k <:+ mid) ∧
  (∀ k, 0 < k → k < mEnd.length → ¬ mEnd.take k <:+ mid) ∧
  (∀ k, 0 < k → k < ctxStart.length → ¬ ctxStart.take k <:+ mid) ∧
  (∀ k, 0 < k → k < ctxEnd.length → ¬ ctxEnd.take k <:+ mid) ∧
  33 ≤ mid.length

theorem midGood_of_pieces (mid x r : Str) (ps : List Str)
    (hflat : mid = ps.flatten) (hxr : mid = x ++ r)
    (hall : ∀ p ∈ ps, pieceCleanAll p = true)
    (hr : pieceCleanAll r = true) (hlen : 34 ≤ r.length + 1) : MidGood mid := by
  have hmlen : mStart.length ≤ 34 := by decide
  have helen : mEnd.length ≤ 34 := by decide
  have hcslen : ctxStart.length ≤ 34 := by decide
  have hcelen : ctxEnd.length ≤ 34 := by decide
  refine ⟨?_, ?_, ?_, ?_, ?_, ?_, ?_, ?_, ?_⟩
  · rw [hflat]
    exact occCount_join_zero _ ps fun p hp => pieceCleanAll_mStart p (hall p hp)
  · rw [hflat]
    exact occCount_join_zero _ ps fun p hp => pieceCleanAll_mEnd p (hall p hp)
  · rw [hflat]
    exact occCount_join_zero _ ps fun p hp => pieceCleanAll_ctxStart p (hall p hp)
  · rw [hflat]
    exact occCount_join_zero _ ps fun p hp => pieceCleanAll_ctxEnd p (hall p hp)
  · rw [hxr]
    exact noTakeSuffix_append_last _ x r (pieceCleanAll_mStart r hr) (by omega)
  · rw [hxr]
    exact noTakeSuffix_append_last _ x r (pieceCleanAll_mEnd r hr) (by omega)
  · rw [hxr]
    exact noTakeSuffix_append_last _ x r (pieceCleanAll_ctxStart r hr) (by omega)
  · rw [hxr]
    exact noTakeSuffix_append_last _ x r (pieceCleanAll_ctxEnd r hr) (by omega)
  · rw [hxr, List.length_append]
    omega

theorem claudeMidGood : MidGood claudeMid := by
  refine midGood_of_pieces claudeMid (str "\n" ++ coreBody) claudeTail
    [str "\n", coreP1, coreP2, coreP3, coreP4, coreP5, coreP6, coreP7, claudeTail]
    ?_ ?_ ?_ cleanClaudeTail (by decide)
  · simp [claudeMid, coreBody, List.flatten_cons, List.flatten_nil, List.append_assoc]
  · simp [claudeMid, List.append_assoc]
  · intro p hp
    simp only [List.mem_cons, List.mem_singleton] at hp
    rcases hp with rfl | rfl | rfl | rfl | rfl | rfl | rfl | rfl | rfl | h
    · exact cleanNl
    · exact cleanCoreP1
    · exact cleanCoreP2
    · exact cleanCoreP3
    · exact cleanCoreP4
    · exact cleanCoreP5
    · exact cleanCoreP6
    · exact cleanCoreP7
    · exact cleanClaudeTail
    · exact absurd h (by simp)

theorem antiMidGood : MidGood antiMid := by
  refine midGood_of_pieces antiMid (str "\n" ++ coreBody ++ antiTail1) antiTail2
    [str "\n", coreP1, coreP2, coreP3, coreP4, coreP5, coreP6, coreP7, antiTail1, antiTail2]
    ?_ ?_ ?_ cleanAntiTail2 (by decide)
  · simp [antiMid, coreBody, List.flatten_cons, List.flatten_nil, List.append_assoc]
  · simp [antiMid, List.append_assoc]
  · intro p hp
    simp only [List.mem_cons, List.mem_singleton] at hp
    rcases hp with rfl | rfl | rfl | rfl | rfl | rfl | rfl | rfl | rfl | rfl | h
    · exact cleanNl
    · exact cleanCoreP1
    · exact cleanCoreP2
    · exact cleanCoreP3
    · exact cleanCoreP4
    · exact cleanCoreP5
    · exact cleanCoreP6
    · exact cleanCoreP7
    · exact cleanAntiTail1
    · exact cleanAntiTail2
    · exact absurd h (by simp)

/-- No nonempty proper suffix of `pat` is a prefix of `b` (computable). -/
def noDropPrefixIn (pat b : Str) : Bool :=
  (List.range pat.length).all fun k => k = 0 || !((pat.drop k).isPrefixOf b)

theorem noDropPrefixIn_spec (pat b : Str) (h : noDropPrefixIn pat b = true) :
    ∀ k, 0 < k → k < pat.length → ¬ pat.drop k <+: b := by
  intro k hk hklt hpre
  have hh := List.all_eq_true.mp h k (List.mem_range.mpr hklt)
  simp only [Bool.or_eq_true, decide_eq_true_eq, Bool.not_eq_true'] at hh
  rcases hh with h0 | hne
  · omega
  · rw [Bool.eq_false_iff] at hne
    exact hne ( List.isPrefixOf_iff_prefix.mpr hpre)

/-- The four markers contain no newline, so none of their nonempty suffixes
is a prefix of a separator made of newlines; and no marker occurs inside a
separator. -/
theorem sepFacts :
    (noDropPrefixIn mStart (str "\n") = true ∧ noDropPrefixIn mStart (str "\n\n") = true ∧
     noDropPrefixIn mEnd (str "\n") = true ∧ noDropPrefixIn mEnd (str "\n\n") = true ∧
     noDropPrefixIn ctxStart (str "\n") = true ∧ noDropPrefixIn ctxStart (str "\n\n") = true ∧
     noDropPrefixIn ctxEnd (str "\n") = true ∧ noDropPrefixIn ctxEnd (str "\n\n") = true) ∧
    (occCount mStart (str "\n") = 0 ∧ occCount mStart (str "\n\n") = 0 ∧
     occCount mEnd (str "\n") = 0 ∧ occCount mEnd (str "\n\n") = 0 ∧
     occCount ctxStart (str "\n") = 0 ∧ occCount ctxStart (str "\n\n") = 0 ∧
     occCount ctxEnd (str "\n") = 0 ∧ occCount ctxEnd (str "\n\n") = 0) := by decide

theorem openMidGood : MidGood openMid := by
  refine midGood_of_pieces openMid (str "\n" ++ coreBody) openTail
    [str "\n", coreP1, coreP2, coreP3, coreP4, coreP5, coreP6, coreP7, openTail]
    ?_ ?_ ?_ cleanOpenTail (by decide)
  · simp [openMid, coreBody, List.flatten_cons, List.flatten_nil, List.append_assoc]
  · simp [openMid, List.append_assoc]
  · intro p hp
    simp only [List.mem_cons, List.mem_singleton] at hp
    rcases hp with rfl | rfl | rfl | rfl | rfl | rfl | rfl | rfl | rfl | h
    · exact cleanNl
    · exact cleanCoreP1
    · exact cleanCoreP2
    · exact cleanCoreP3
    · exact cleanCoreP4
    · exact cleanCoreP5
    · exact cleanCoreP6
    · exact cleanCoreP7
    · exact cleanOpenTail
    · exact absurd h (by simp)

-- ---------------------------------------------------------------------------
-- Span traces over canonical marker-delimited files
-- ---------------------------------------------------------------------------

/-- An instruction span: the shape of every append-within-markers content. -/
def spanContent (mid : Str) : Str := mStart ++ mid ++ mEnd

theorem replaceSpansFuel_none (mS mE repl : Str) (f : Nat) (s : Str)
    (h : splitFirst mS s = none) : replaceSpansFuel mS mE repl f s = s := by
  cases f with
  | zero => rfl
  | succ f => simp [replaceSpansFuel, h]

theorem splitFirst_nl_mStart : splitFirst mStart (str "\n") = none := by decide

/-- Either-direction prefix exclusion of the suffixes of `pat` against a
marker `m2` (computable); rules out occurrences of `pat` straddling into any
string that starts with `m2`. -/
def noDropCross (pat m2 : Str) : Bool :=
  (List.range pat.length).all fun k =>
    k = 0 ||
      (if pat.length - k ≤ m2.length then !((pat.drop k).isPrefixOf m2)
       else !(m2.isPrefixOf (pat.drop k)))

theorem noDropCross_spec (pat m2 rest : Str) (h : noDropCross pat m2 = true) :
    ∀ k, 0 < k → k < pat.length → ¬ pat.drop k <+: m2 ++ rest := by
  intro k hk hklt hpre
  have hh := List.all_eq_true.mp h k (List.mem_range.mpr hklt)
  simp only [Bool.or_eq_true, decide_eq_true_eq] at hh
  rcases hh with h0 | hcond
  · omega
  have hdklen : (pat.drop k).length = pat.length - k := by
    rw [List.length_drop]
  rcases le_or_lt (pat.length - k) m2.length with hle | hgt
  · rw [if_pos hle, Bool.not_eq_true'] at hcond
    rw [Bool.eq_false_iff] at hcond
    refine hcond ( List.isPrefixOf_iff_prefix.mpr ?_)
    exact prefix_of_prefix_append _ m2 rest hpre (by omega)
  · rw [if_neg (by omega), Bool.not_eq_true'] at hcond
    rw [Bool.eq_false_iff] at hcond
    refine hcond ( List.isPrefixOf_iff_prefix.mpr ?_)
    exact List.prefix_of_prefix_length_le ( List.prefix_append m2 rest) hpre (by omega)

theorem crossFacts :
    noDropCross mStart mStart = true ∧ noDropCross mEnd mStart = true ∧
    noDropCross ctxStart mStart = true ∧ noDropCross ctxEnd mStart = true ∧
    noDropCross mStart ctxStart = true ∧ noDropCross mEnd ctxStart = true ∧
    noDropCross ctxStart ctxStart = true ∧ noDropCross ctxEnd ctxStart = true := by decide

/-- The full content with trailing newline, canonically reassociated. -/
theorem spanContent_assoc (mid : Str) :
    spanContent mid ++ str "\n" = mStart ++ (mid ++ (mEnd ++ str "\n")) := by
  simp [spanContent, List.append_assoc]

theorem occ_mStart_content (mid : Str) (hg : MidGood mid) :
    occCount mStart (spanContent mid ++ str "\n") = 1 := by
  rw [spanContent_assoc]
  refine occCount_self_append mStart _ unbordered_mStart occCount_mStart_self ?_
  rw [occCount_append_left mStart mid (mEnd ++ str "\n") hg.2.2.2.2.1]
  rw [occCount_append_left mStart mEnd (str "\n")
    (pieceClean_take mStart mEnd clean_mStart_mEnd)]
  rw [hg.1, pieceClean_occ mStart mEnd clean_mStart_mEnd, sepFacts.2.1]

theorem occ_mEnd_content (mid : Str) (hg : MidGood mid) :
    occCount mEnd (spanContent mid ++ str "\n") = 1 := by
  have hre : spanContent mid ++ str "\n" = (mStart ++ mid) ++ (mEnd ++ str "\n") := by
    simp [spanContent, List.append_assoc]
  rw [hre]
  have hcond : ∀ k, 0 < k → k < mEnd.length → ¬ mEnd.take k <:+ mStart ++ mid := by
    intro k hk hklt hsuf
    have hlen : (mEnd.take k).length ≤ mid.length := by
      rw [List.length_take]
      have hbig := hg.2.2.2.2.2.2.2.2
      have : mEnd.length ≤ 34 := by decide
      omega
    exact hg.2.2.2.2.2.1 k hk hklt (suffix_transfer _ mStart mid hsuf hlen)
  rw [occCount_append_left mEnd (mStart ++ mid) (mEnd ++ str "\n") hcond]
  rw [occCount_append_left mEnd mStart mid (pieceClean_take mEnd mStart clean_mEnd_mStart)]
  rw [pieceClean_occ mEnd mStart clean_mEnd_mStart, hg.2.1,
    occCount_self_append mEnd _ unbordered_mEnd occCount_mEnd_self sepFacts.2.2.2.1]

theorem occ_ctxStart_content (mid : Str) (hg : MidGood mid) :
    occCount ctxStart (spanContent mid ++ str "\n") = 0 := by
  rw [spanContent_assoc]
  rw [occCount_append_left ctxStart mStart _
    (pieceClean_take ctxStart mStart clean_ctxStart_mStart)]
  rw [occCount_append_left ctxStart mid _ hg.2.2.2.2.2.2.1]
  rw [occCount_append_left ctxStart mEnd _
    (pieceClean_take ctxStart mEnd clean_ctxStart_mEnd)]
  rw [pieceClean_occ ctxStart mStart clean_ctxStart_mStart,
    pieceClean_occ ctxStart mEnd clean_ctxStart_mEnd, hg.2.2.1, sepFacts.2.2.2.2.2.1]

theorem occ_ctxEnd_content (mid : Str) (hg : MidGood mid) :
    occCount ctxEnd (spanContent mid ++ str "\n") = 0 := by
  rw [spanContent_assoc]
  rw [occCount_append_left ctxEnd mStart _
    (pieceClean_take ctxEnd mStart clean_ctxEnd_mStart)]
  rw [occCount_append_left ctxEnd mid _ hg.2.2.2.2.2.2.2.1]
  rw [occCount_append_left ctxEnd mEnd _
    (pieceClean_take ctxEnd mEnd clean_ctxEnd_mEnd)]
  rw [pieceClean_occ ctxEnd mStart clean_ctxEnd_mStart,
    pieceClean_occ ctxEnd mEnd clean_ctxEnd_mEnd, hg.2.2.2.1, sepFacts.2.2.2.2.2.2.2.1]

theorem splitFirst_mStart_canonical (mid u : Str) (hu : occCount mStart u = 0) :
    splitFirst mStart (u ++ (spanContent mid ++ str "\n")) =
      some (u, mid ++ (mEnd ++ str "\n")) := by
  have hre : u ++ (spanContent mid ++ str "\n") =
      u ++ mStart ++ (mid ++ (mEnd ++ str "\n")) := by
    simp [spanContent, List.append_assoc]
  rw [hre]
  exact splitFirst_clean_append mStart u _ (by decide) hu unbordered_mStart

theorem splitFirst_mEnd_inner (mid : Str) (hg : MidGood mid) :
    splitFirst mEnd (mid ++ (mEnd ++ str "\n")) = some (mid, str "\n") := by
  have hre : mid ++ (mEnd ++ str "\n") = mid ++ mEnd ++ str "\n" := by
    simp [List.append_assoc]
  rw [hre]
  exact splitFirst_clean_append mEnd mid _ (by decide) hg.2.1 unbordered_mEnd

/-- Updating the span of a canonical marker-delimited file with its own
content is the identity (the heart of idempotence). -/
theorem generate_on_canonical (mid u : Str) (hg : MidGood mid)
    (hu : occCount mStart u = 0) :
    appendOrUpdateSection (some (u ++ (spanContent mid ++ str "\n")))
      (spanContent mid) mStart mEnd = (u ++ (spanContent mid ++ str "\n"), .updated) := by
  have hsf := splitFirst_mStart_canonical mid u hu
  have hcontains : containsSub mStart (u ++ (spanContent mid ++ str "\n")) = true := by
    rw [containsSub, hsf]
    rfl
  rw [appendOrUpdateSection]
  rw [hcontains]
  simp only [if_true]
  rw [replaceSpans]
  have hlen : (u ++ (spanContent mid ++ str "\n")).length + 1 =
      ((u ++ (spanContent mid ++ str "\n")).length) + 1 := rfl
  rw [show ∀ n, replaceSpansFuel mStart mEnd (spanContent mid) (n + 1)
        (u ++ (spanContent mid ++ str "\n")) =
      match splitFirst mStart (u ++ (spanContent mid ++ str "\n")) with
      | none => u ++ (spanContent mid ++ str "\n")
      | some (pre, rest) =>
        match splitFirst mEnd rest with
        | none => u ++ (spanContent mid ++ str "\n")
        | some (_, post) =>
          pre ++ spanContent mid ++ replaceSpansFuel mStart mEnd (spanContent mid) n post
      from fun n => rfl]
  rw [hsf]
  simp only
  rw [splitFirst_mEnd_inner mid hg]
  simp only
  rw [replaceSpansFuel_none _ _ _ _ _ splitFirst_nl_mStart]
  simp [List.append_assoc]

-- ---------------------------------------------------------------------------
-- The C1 invariant
-- ---------------------------------------------------------------------------

/-- A text free of all four markers. -/
def CleanAll (s : Str) : Prop :=
  occCount mStart s = 0 ∧ occCount mEnd s = 0 ∧
  occCount ctxStart s = 0 ∧ occCount ctxEnd s = 0

theorem cleanAll_nil : CleanAll [] := ⟨rfl, rfl, rfl, rfl⟩

theorem cleanAll_append_sep (s : Str) (h : CleanAll s) (sep : Str)
    (hsep : sep = str "\n" ∨ sep = str "\n\n") : CleanAll (s ++ sep) := by
  obtain ⟨h1, h2, h3, h4⟩ := h
  have hfacts := sepFacts
  rcases hsep with rfl | rfl
  · exact ⟨by rw [occCount_append_right _ _ _ (noDropPrefixIn_spec _ _ hfacts.1.1), h1,
        hfacts.2.1],
      by rw [occCount_append_right _ _ _ (noDropPrefixIn_spec _ _ hfacts.1.2.2.1), h2,
        hfacts.2.2.2.1],
      by rw [occCount_append_right _ _ _ (noDropPrefixIn_spec _ _ hfacts.1.2.2.2.2.1), h3,
        hfacts.2.2.2.2.2.1],
      by rw [occCount_append_right _ _ _ (noDropPrefixIn_spec _ _ hfacts.1.2.2.2.2.2.2.1), h4,
        hfacts.2.2.2.2.2.2.2.1]⟩
  · exact ⟨by rw [occCount_append_right _ _ _ (noDropPrefixIn_spec _ _ hfacts.1.2.1), h1,
        hfacts.2.2.1],
      by rw [occCount_append_right _ _ _ (noDropPrefixIn_spec _ _ hfacts.1.2.2.2.1), h2,
        hfacts.2.2.2.2.1],
      by rw [occCount_append_right _ _ _ (noDropPrefixIn_spec _ _ hfacts.1.2.2.2.2.2.1), h3,
        hfacts.2.2.2.2.2.2.1],
      by rw [occCount_append_right _ _ _ (noDropPrefixIn_spec _ _ hfacts.1.2.2.2.2.2.2.2), h4,
        hfacts.2.2.2.2.2.2.2.2]⟩

/-- Invariant: the file is absent, or marker-free, or consists of marker-free
user text followed by exactly one generated span and a newline. -/
def CanonInv (mid : Str) (file : Option Str) : Prop :=
  file = none ∨ (∃ s, file = some s ∧ CleanAll s) ∨
  (∃ u, file = some (u ++ (spanContent mid ++ str "\n")) ∧ CleanAll u)

theorem genFile_preserves (mid : Str) (hg : MidGood mid) (file : Option Str)
    (hinv : CanonInv mid file) :
    CanonInv mid (some (appendOrUpdateSection file (spanContent mid) mStart mEnd).1) := by
  rcases hinv with rfl | ⟨s, rfl, hclean⟩ | ⟨u, rfl, hclean⟩
  · refine Or.inr (Or.inr ⟨[], ?_, cleanAll_nil⟩)
    simp [appendOrUpdateSection]
  · have hnc : containsSub mStart s = false :=
      (containsSub_false_iff mStart s (by decide)).mpr hclean.1
    refine Or.inr (Or.inr ⟨s ++ (if endsWithNl s then str "\n" else str "\n\n"), ?_,
      cleanAll_append_sep s hclean _ (by split <;> simp)⟩)
    rw [appendOrUpdateSection]
    rw [hnc]
    simp [List.append_assoc]
  · rw [generate_on_canonical mid u hg hclean.1]
    exact Or.inr (Or.inr ⟨u, rfl, hclean⟩)

-- ---------------------------------------------------------------------------
-- Per-target synchronization operations (for invariant claims)
-- ---------------------------------------------------------------------------

/-- One synchronization event touching a rule target's file: a rule-generation
write (`writeIDERules` → `appendOrUpdateSection`) or a context injection
(`injectContextIntoRules`, which skips non-gitignored targets and absent
files). -/
inductive SyncOp where
  | generate
  | inject (ctx : Str)

/-- Effect of one event on the target's rule file, following
`agent-rules.ts:324-327` and `agent-rules.ts:642-665`. -/
def applyOp (t : IDERuleConfig) (op : SyncOp) (file : Option Str) : Option Str :=
  match op with
  | .generate => some (appendOrUpdateSection file t.content t.markerStart t.markerEnd).1
  | .inject ctx =>
    if t.gitignore then
      match file with
      | some content => some (injectIntoFile (contextSection ctx) content)
      | none => none
    else file

theorem foldInv_generic (mid : Str) (hg : MidGood mid) (t : IDERuleConfig)
    (hgi : t.gitignore = false) (hc : t.content = spanContent mid)
    (hms : t.markerStart = mStart) (hme : t.markerEnd = mEnd) :
    ∀ (ops : List SyncOp) (file : Option Str), CanonInv mid file →
      CanonInv mid (ops.foldl (fun f op => applyOp t op f) file) := by
  intro ops
  induction ops with
  | nil => exact fun file h => h
  | cons op ops ih =>
    intro file hfile
    rw [List.foldl_cons]
    refine ih _ ?_
    cases op with
    | generate =>
      show CanonInv mid (some (appendOrUpdateSection file t.content t.markerStart t.markerEnd).1)
      rw [hc, hms, hme]
      exact genFile_preserves mid hg file hfile
    | inject ctx =>
      show CanonInv mid (if t.gitignore then _ else file)
      rw [hgi]
      simpa using hfile

theorem canon_counts (mid : Str) (out : Str) (hg : MidGood mid)
    (hinv : CanonInv mid (some out)) :
    occCount mStart out ≤ 1 ∧ occCount mEnd out ≤ 1 ∧
    occCount ctxStart out ≤ 1 ∧ occCount ctxEnd out ≤ 1 := by
  rcases hinv with h | ⟨s, hs, hclean⟩ | ⟨u, hu, hclean⟩
  · exact absurd h (by simp)
  · have hss : out = s := by injection hs
    subst hss
    exact ⟨by rw [hclean.1]; omega, by rw [hclean.2.1]; omega,
      by rw [hclean.2.2.1]; omega, by rw [hclean.2.2.2]; omega⟩
  · have hss : out = u ++ (spanContent mid ++ str "\n") := by injection hu
    subst hss
    have hcf := crossFacts
    have hsplit : ∀ pat : Str, noDropCross pat mStart = true →
        occCount pat (u ++ (spanContent mid ++ str "\n")) =
          occCount pat u + occCount pat (spanContent mid ++ str "\n") := by
      intro pat hpat
      rw [spanContent_assoc]
      exact occCount_append_right pat u _ (noDropCross_spec pat mStart _ hpat)
    refine ⟨?_, ?_, ?_, ?_⟩
    · rw [hsplit mStart hcf.1, hclean.1, occ_mStart_content mid hg]
    · rw [hsplit mEnd hcf.2.1, hclean.2.1, occ_mEnd_content mid hg]
    · rw [hsplit ctxStart hcf.2.2.1, hclean.2.2.1, occ_ctxStart_content mid hg]
      omega
    · rw [hsplit ctxEnd hcf.2.2.2.1, hclean.2.2.2, occ_ctxEnd_content mid hg]
      omega

theorem applyOp_generate (t : IDERuleConfig) (file : Option Str) :
    applyOp t .generate file =
      some (appendOrUpdateSection file t.content t.markerStart t.markerEnd).1 := rfl

theorem claudeContent_span : claudeCodeRule.content = spanContent claudeMid := by
  simp only [claudeCodeRule]
  rw [claudeContent_eq]
  rfl

theorem antiContent_span : antigravityRule.content = spanContent antiMid := by
  simp only [antigravityRule]
  rw [antiContent_eq]
  rfl

theorem openContent_span : opencodeRule.content = spanContent openMid := by
  simp only [opencodeRule]
  rw [openContent_eq]
  rfl

/-- C1.  For every append-within-markers rule target, starting from an absent
file or one free of all marker tokens, any sequence of rule-generation writes
and context injections leaves a file with at most one occurrence of each
instruction marker token and at most one occurrence of each context marker
token; in particular generating twice never duplicates the instruction span. -/
theorem claim1_marker_pair_uniqueness :
    ∀ t ∈ getAllIDERules, t.appendToExisting = true →
    ∀ init : Option Str, (init = none ∨ ∃ s, init = some s ∧ CleanAll s) →
    ∀ ops : List SyncOp, ∀ out : Str,
      ops.foldl (fun f op => applyOp t op f) init = some out →
      occCount t.markerStart out ≤ 1 ∧ occCount t.markerEnd out ≤ 1 ∧
      occCount ctxStart out ≤ 1 ∧ occCount ctxEnd out ≤ 1 := by
  intro t ht hta init hinit ops out hout
  have hinit' : ∀ mid, CanonInv mid init := by
    intro mid
    rcases hinit with rfl | ⟨s, rfl, hclean⟩
    · exact Or.inl rfl
    · exact Or.inr (Or.inl ⟨s, rfl, hclean⟩)
  simp only [getAllIDERules, List.mem_cons, List.not_mem_nil, or_false] at ht
  rcases ht with rfl | rfl | rfl | rfl | rfl | rfl | rfl
  · have hfold := foldInv_generic claudeMid claudeMidGood claudeCodeRule rfl
      claudeContent_span rfl rfl ops init (hinit' claudeMid)
    rw [hout] at hfold
    exact canon_counts claudeMid out claudeMidGood hfold
  · exact absurd hta (by decide)
  · have hfold := foldInv_generic antiMid antiMidGood antigravityRule rfl
      antiContent_span rfl rfl ops init (hinit' antiMid)
    rw [hout] at hfold
    exact canon_counts antiMid out antiMidGood hfold
  · exact absurd hta (by decide)
  · have hfold := foldInv_generic openMid openMidGood opencodeRule rfl
      openContent_span rfl rfl ops init (hinit' openMid)
    rw [hout] at hfold
    exact canon_counts openMid out openMidGood hfold
  · exact absurd hta (by decide)
  · exact absurd hta (by decide)

/-- Witness for C1: the Claude Code target, a fresh file, and two generation
writes; the second write hits the update branch and the file still holds
exactly one marker pair. -/
theorem claim1_marker_pair_uniqueness_witness :
    occCount claudeCodeRule.markerStart (generateClaudeCodeRules ++ str "\n") ≤ 1 ∧
    occCount claudeCodeRule.markerEnd (generateClaudeCodeRules ++ str "\n") ≤ 1 ∧
    occCount ctxStart (generateClaudeCodeRules ++ str "\n") ≤ 1 ∧
    occCount ctxEnd (generateClaudeCodeRules ++ str "\n") ≤ 1 := by
  refine claim1_marker_pair_uniqueness claudeCodeRule ?_ rfl none (Or.inl rfl)
    [SyncOp.generate, SyncOp.generate] (generateClaudeCodeRules ++ str "\n") ?_
  · show claudeCodeRule ∈ [claudeCodeRule, cursorRule, antigravityRule, antigravityDirRule,
      opencodeRule, traeRule, warpRule]
    exact List.mem_cons_self _ _
  · have hms : claudeCodeRule.markerStart = mStart := rfl
    have hme : claudeCodeRule.markerEnd = mEnd := rfl
    rw [List.foldl_cons, List.foldl_cons, List.foldl_nil, applyOp_generate, applyOp_generate]
    rw [claudeContent_span, hms, hme]
    rw [show appendOrUpdateSection none (spanContent claudeMid) mStart mEnd =
      (spanContent claudeMid ++ str "\n", WriteAction.created) from rfl]
    rw [show ((spanContent claudeMid ++ str "\n", WriteAction.created)).1 =
      [] ++ (spanContent claudeMid ++ str "\n") by rw [List.nil_append]]
    rw [generate_on_canonical claudeMid [] claudeMidGood rfl]
    rw [claudeContent_eq]
    simp [spanContent]

-- ---------------------------------------------------------------------------
-- C2: generate-then-remove round trip
-- ---------------------------------------------------------------------------

theorem removeSpansFuel_none (mS mE : Str) (f : Nat) (s : Str)
    (h : splitFirst mS s = none) : removeSpansFuel mS mE f s = s := by
  cases f with
  | zero => rfl
  | succ f => simp [removeSpansFuel, h]

theorem splitFirst_empty (pat : Str) (hp : pat ≠ []) : splitFirst pat [] = none :=
  (splitFirst_eq_none_iff pat [] hp).mpr rfl

theorem dropOneLeadingNl_nl : dropOneLeadingNl (str "\n") = [] := rfl

theorem removeSpans_canonical (mid u : Str) (hg : MidGood mid)
    (hu : occCount mStart u = 0) :
    removeSpans mStart mEnd (u ++ (spanContent mid ++ str "\n")) = dropOneTrailingNl u := by
  have hsf := splitFirst_mStart_canonical mid u hu
  rw [removeSpans]
  rw [show ∀ n, removeSpansFuel mStart mEnd (n + 1) (u ++ (spanContent mid ++ str "\n")) =
      match splitFirst mStart (u ++ (spanContent mid ++ str "\n")) with
      | none => u ++ (spanContent mid ++ str "\n")
      | some (pre, rest) =>
        match splitFirst mEnd rest with
        | none => u ++ (spanContent mid ++ str "\n")
        | some (_, post) =>
          dropOneTrailingNl pre ++ removeSpansFuel mStart mEnd n (dropOneLeadingNl post)
      from fun n => rfl]
  rw [hsf]
  simp only
  rw [splitFirst_mEnd_inner mid hg]
  simp only
  rw [dropOneLeadingNl_nl, removeSpansFuel_none _ _ _ _ (splitFirst_empty mStart (by decide))]
  rw [List.append_nil]

theorem removeSection_on_canonical (mid u : Str) (hg : MidGood mid)
    (hu : occCount mStart u = 0) :
    removeSectionFromFile (u ++ (spanContent mid ++ str "\n")) mStart mEnd =
      (if (jsTrim (dropOneTrailingNl u)).length > 0
       then some (jsTrim (dropOneTrailingNl u) ++ str "\n") else none) := by
  have hcontains : containsSub mStart (u ++ (spanContent mid ++ str "\n")) = true := by
    rw [containsSub, splitFirst_mStart_canonical mid u hu]
    rfl
  rw [removeSectionFromFile]
  rw [hcontains]
  simp only [if_true]
  rw [removeSpans_canonical mid u hg hu]

theorem endsWithNl_concat (x : Str) : endsWithNl (x ++ ['\n']) = true := by
  simp [endsWithNl, List.getLast?_concat]

theorem dropOneTrailingNl_concat (x : Str) : dropOneTrailingNl (x ++ ['\n']) = x := by
  rw [dropOneTrailingNl, if_pos (endsWithNl_concat x), List.dropLast_concat]

/-- C2 counterexample: a CLAUDE.md holding exactly `"abc"` (no trailing
newline) is returned as `"abc\n"` after one rule generation and one removal,
so the generate-then-remove cycle is not the identity on arbitrary user
content. -/
theorem claim2_round_trip_counterexample :
    removeSectionFromFile
      (appendOrUpdateSection (some (str "abc")) claudeCodeRule.content
        claudeCodeRule.markerStart claudeCodeRule.markerEnd).1
      claudeCodeRule.markerStart claudeCodeRule.markerEnd = some (str "abc\n") ∧
    some (str "abc\n") ≠ some (str "abc") := by
  constructor
  · have hms : claudeCodeRule.markerStart = mStart := rfl
    have hme : claudeCodeRule.markerEnd = mEnd := rfl
    rw [claudeContent_span, hms, hme]
    have hnc : containsSub mStart (str "abc") = false := by decide
    rw [appendOrUpdateSection]
    rw [hnc]
    simp only [Bool.false_eq_true, if_false]
    have hsep : endsWithNl (str "abc") = false := by decide
    rw [hsep]
    simp only [Bool.false_eq_true, if_false]
    have hre : str "abc" ++ str "\n\n" ++ spanContent claudeMid ++ str "\n" =
        str "abc\n\n" ++ (spanContent claudeMid ++ str "\n") := by
      simp [List.append_assoc]
      rfl
    rw [hre]
    rw [removeSection_on_canonical claudeMid (str "abc\n\n") claudeMidGood (by decide)]
    rfl
  · decide

/-- C2 (amended).  If the user content is whitespace-normalized — nonempty,
beginning with a non-whitespace character, and ending with exactly one
newline after a non-whitespace character — and free of all markers, then for
every append-within-markers target a rule generation followed by the removal
branch of `removeIDERules` returns the file byte-identical. -/
theorem claim2_round_trip_normalized (user t0 : Str) (c0 cl : Char)
    (hshape : user = t0 ++ ['\n']) (hhead : t0.head? = some c0) (hc0 : isWs c0 = false)
    (hlast : t0.getLast? = some cl) (hcl : isWs cl = false)
    (hclean : CleanAll user) :
    ∀ t ∈ getAllIDERules, t.appendToExisting = true →
    removeSectionFromFile
      (appendOrUpdateSection (some user) t.content t.markerStart t.markerEnd).1
      t.markerStart t.markerEnd = some user := by
  have ht0ne : t0 ≠ [] := by
    cases t0 with
    | nil => simp at hhead
    | cons a b => exact List.cons_ne_nil a b
  have hgen : ∀ mid : Str, MidGood mid →
      removeSectionFromFile
        (appendOrUpdateSection (some user) (spanContent mid) mStart mEnd).1
        mStart mEnd = some user := by
    intro mid hg
    have hnc : containsSub mStart user = false :=
      (containsSub_false_iff mStart user (by decide)).mpr hclean.1
    rw [appendOrUpdateSection]
    rw [hnc]
    simp only [Bool.false_eq_true, if_false]
    have hew : endsWithNl user = true := by
      rw [hshape]
      exact endsWithNl_concat t0
    rw [hew]
    simp only [if_true]
    have hre : user ++ str "\n" ++ spanContent mid ++ str "\n" =
        (user ++ str "\n") ++ (spanContent mid ++ str "\n") := by
      simp [List.append_assoc]
    rw [hre]
    have huclean : occCount mStart (user ++ str "\n") = 0 :=
      (cleanAll_append_sep user hclean _ (Or.inl rfl)).1
    rw [removeSection_on_canonical mid (user ++ str "\n") hg huclean]
    have hdrop : dropOneTrailingNl (user ++ str "\n") = user := by
      rw [show user ++ str "\n" = user ++ ['\n'] from rfl, dropOneTrailingNl_concat]
    rw [hdrop]
    have htrim : jsTrim user = t0 := by
      rw [hshape, jsTrim]
      rw [jsTrimStart_append_head t0 ['\n'] c0 hhead hc0]
      rw [show t0 ++ ['\n'] = t0 ++ ['\n'] from rfl]
      rw [jsTrimEnd_append_ws t0 '\n' (by decide)]
      exact jsTrimEnd_eq_self t0 cl hlast hcl
    rw [htrim]
    rw [if_pos (by exact List.length_pos.mpr ht0ne)]
    rw [hshape]
    rfl
  intro t ht hta
  simp only [getAllIDERules, List.mem_cons, List.not_mem_nil, or_false] at ht
  rcases ht with rfl | rfl | rfl | rfl | rfl | rfl | rfl
  · rw [claudeContent_span, show claudeCodeRule.markerStart = mStart from rfl,
      show claudeCodeRule.markerEnd = mEnd from rfl]
    exact hgen claudeMid claudeMidGood
  · exact absurd hta (by decide)
  · rw [antiContent_span, show antigravityRule.markerStart = mStart from rfl,
      show antigravityRule.markerEnd = mEnd from rfl]
    exact hgen antiMid antiMidGood
  · exact absurd hta (by decide)
  · rw [openContent_span, show opencodeRule.markerStart = mStart from rfl,
      show opencodeRule.markerEnd = mEnd from rfl]
    exact hgen openMid openMidGood
  · exact absurd hta (by decide)
  · exact absurd hta (by decide)

/-- Witness for C2: the concrete scenario of the spec — a CLAUDE.md holding
`"# My Project\n\nDescription.\n"` comes back byte-identical. -/
theorem claim2_round_trip_normalized_witness :
    removeSectionFromFile
      (appendOrUpdateSection (some (str "# My Project\n\nDescription.\n"))
        claudeCodeRule.content claudeCodeRule.markerStart claudeCodeRule.markerEnd).1
      claudeCodeRule.markerStart claudeCodeRule.markerEnd =
      some (str "# My Project\n\nDescription.\n") := by
  refine claim2_round_trip_normalized (str "# My Project\n\nDescription.\n")
    (str "# My Project\n\nDescription.") '#' '.' (by decide) rfl (by decide) rfl
    (by decide) ⟨by decide, by decide, by decide, by decide⟩ claudeCodeRule ?_ rfl
  show claudeCodeRule ∈ [claudeCodeRule, cursorRule, antigravityRule, antigravityDirRule,
    opencodeRule, traeRule, warpRule]
  exact List.mem_cons_self _ _

-- ---------------------------------------------------------------------------
-- C3: MCP configuration merge / removal
-- ---------------------------------------------------------------------------

/-- The merge performed by `writeMcpConfig` (`agent-rules.ts:394-430`) on the
parsed configuration document:
`{...existing, mcpServers: {...(existing.mcpServers || {}), ...frag.mcpServers}}`.
`none` models a missing or unparseable file (both treated as `{}`); a
non-object `mcpServers` value is treated as contributing no entries (the
fragments written by the registry are always objects). -/
def writeMcpConfigObj (existing : Option JsonObj) (frag : JsonObj) : JsonObj :=
  let ex := existing.getD []
  let exServers : JsonObj :=
    match objLookup ex (str "mcpServers") with
    | some (Json.obj m) => m
    | _ => []
  let fragServers : JsonObj :=
    match objLookup frag (str "mcpServers") with
    | some (Json.obj m) => m
    | _ => []
  objSet ex (str "mcpServers") (Json.obj (objSpread exServers fragServers))

inductive McpRemoveOutcome where
  | untouched
  | deleted
  | rewritten (cfg : JsonObj)
deriving Repr

/-- The MCP-configuration branch of `removeIDERules`
(`agent-rules.ts:511-532`) on a parsed configuration document. -/
def removeMcpFromConfig (config : JsonObj) : McpRemoveOutcome :=
  match objLookup config (str "mcpServers") with
  | some (Json.obj servers) =>
    match objLookup servers (str "valyrianctx") with
    | some v =>
      if jsTruthy v then
        let servers2 := objDelete servers (str "valyrianctx")
        let config2 :=
          if servers2.isEmpty then objDelete config (str "mcpServers")
          else objSet config (str "mcpServers") (Json.obj servers2)
        if config2.isEmpty then .deleted else .rewritten config2
      else .untouched
    | none => .untouched
  | _ => .untouched

theorem objLookup_cons (kv : Str × Json) (rest : JsonObj) (k : Str) :
    objLookup (kv :: rest) k = if kv.1 = k then some kv.2 else objLookup rest k := rfl

theorem objLookup_append (a b : JsonObj) (k : Str) :
    objLookup (a ++ b) k =
      match objLookup a k with
      | some v => some v
      | none => objLookup b k := by
  induction a with
  | nil => rfl
  | cons kv rest ih =>
    rw [List.cons_append, objLookup_cons, objLookup_cons]
    by_cases hk : kv.1 = k
    · rw [if_pos hk, if_pos hk]
    · rw [if_neg hk, if_neg hk, ih]

theorem objLookup_map_replace (o : JsonObj) (k : Str) (v : Json) (k2 : Str) :
    objLookup (o.map fun kv => if kv.1 = k then (k, v) else kv) k2 =
      if k2 = k then (if (objLookup o k).isSome then some v else none)
      else objLookup o k2 := by
  induction o with
  | nil => by_cases hk : k2 = k <;> simp [objLookup, hk]
  | cons kv rest ih =>
    by_cases hkv : kv.1 = k <;> by_cases hk2 : k2 = k
    · simp_all [List.map_cons, objLookup_cons]
    · have hk2s : ¬ k = k2 := fun h => hk2 h.symm
      simp_all [List.map_cons, objLookup_cons]
    · simp_all [List.map_cons, objLookup_cons]
    · have hk2s : ¬ k = k2 := fun h => hk2 h.symm
      simp_all [List.map_cons, objLookup_cons]

theorem objLookup_objSet (o : JsonObj) (k : Str) (v : Json) (k2 : Str) :
    objLookup (objSet o k v) k2 = if k2 = k then some v else objLookup o k2 := by
  rw [objSet]
  by_cases hsome : (objLookup o k).isSome
  · rw [if_pos hsome, objLookup_map_replace, if_pos hsome]
  · rw [if_neg hsome, objLookup_append]
    by_cases hk2 : k2 = k
    · subst hk2
      have hnone : objLookup o k2 = none := by
        cases h : objLookup o k2 with
        | none => rfl
        | some w => rw [h] at hsome; simp at hsome
      rw [hnone, if_pos rfl]
      simp only
      rw [objLookup_cons]
      simp
    · cases h : objLookup o k2 with
      | none =>
        rw [if_neg hk2]
        simp only [h]
        rw [objLookup_cons, if_neg (fun he : k = k2 => hk2 he.symm)]
        rfl
      | some w =>
        rw [if_neg hk2]

theorem objLookup_objDelete (o : JsonObj) (k k2 : Str) :
    objLookup (objDelete o k) k2 = if k2 = k then none else objLookup o k2 := by
  induction o with
  | nil => by_cases hk : k2 = k <;> simp [objDelete, objLookup, hk]
  | cons kv rest ih =>
    rw [objDelete, List.filter_cons]
    by_cases hkv : kv.1 = k <;> by_cases hk2 : k2 = k
    · simp_all [objDelete, objLookup_cons]
    · have hk2s : ¬ k = k2 := fun h => hk2 h.symm
      simp_all [objDelete, objLookup_cons]
    · simp_all [objDelete, objLookup_cons]
    · have hk2s : ¬ k = k2 := fun h => hk2 h.symm
      simp_all [objDelete, objLookup_cons]

theorem objLookup_spread_map (a b : JsonObj) (k : Str) :
    objLookup (a.map fun kv =>
        match objLookup b kv.1 with
        | some v => (kv.1, v)
        | none => kv) k =
      match objLookup a k with
      | some w => some ((objLookup b k).getD w)
      | none => none := by
  induction a with
  | nil => rfl
  | cons kv rest ih =>
    cases hb : objLookup b kv.1 with
    | none =>
      simp only [List.map_cons, hb]
      rw [objLookup_cons, objLookup_cons]
      by_cases hkv : kv.1 = k
      · rw [if_pos hkv, if_pos hkv, ← hkv, hb]
        rfl
      · rw [if_neg hkv, if_neg hkv, ih]
    | some v =>
      simp only [List.map_cons, hb]
      rw [objLookup_cons, objLookup_cons]
      simp only
      by_cases hkv : kv.1 = k
      · rw [if_pos hkv, if_pos hkv, ← hkv, hb]
        rfl
      · rw [if_neg hkv, if_neg hkv, ih]

theorem objLookup_filter_new (a b : JsonObj) (k : Str) :
    objLookup (b.filter fun kv => (objLookup a kv.1).isNone) k =
      if (objLookup a k).isNone then objLookup b k else none := by
  induction b with
  | nil => by_cases hk : (objLookup a k).isNone <;> simp [objLookup, hk]
  | cons kv rest ih =>
    rw [List.filter_cons]
    by_cases hkv : (objLookup a kv.1).isNone
    · rw [if_pos (by simpa using hkv), objLookup_cons]
      by_cases hkvk : kv.1 = k
      · rw [if_pos hkvk, if_pos (hkvk ▸ hkv), objLookup_cons, if_pos hkvk]
      · rw [if_neg hkvk, ih, objLookup_cons, if_neg hkvk]
    · rw [if_neg (by simpa using hkv), ih]
      by_cases hak : (objLookup a k).isNone
      · rw [if_pos hak, if_pos hak, objLookup_cons,
          if_neg (fun h : kv.1 = k => hkv (h ▸ hak))]
      · rw [if_neg hak, if_neg hak]

theorem objLookup_objSpread (a b : JsonObj) (k : Str) :
    objLookup (objSpread a b) k = (objLookup b k).or (objLookup a k) := by
  rw [objSpread, objLookup_append, objLookup_spread_map, objLookup_filter_new]
  cases ha : objLookup a k with
  | none =>
    simp only
    rw [if_pos (by simp)]
    cases hb : objLookup b k <;> rfl
  | some w =>
    simp only
    cases hb : objLookup b k <;> rfl

theorem writeMcpConfigObj_eq (E : JsonObj) (servers0 : JsonObj) (frag fragS : JsonObj)
    (hES : objLookup E (str "mcpServers") = some (Json.obj servers0))
    (hfragS : objLookup frag (str "mcpServers") = some (Json.obj fragS)) :
    writeMcpConfigObj (some E) frag =
      objSet E (str "mcpServers") (Json.obj (objSpread servers0 fragS)) := by
  simp only [writeMcpConfigObj, Option.getD_some, hES, hfragS]

theorem removeMcpFromConfig_eq (config servers : JsonObj) (entry : Json)
    (h1 : objLookup config (str "mcpServers") = some (Json.obj servers))
    (h2 : objLookup servers (str "valyrianctx") = some entry)
    (h3 : jsTruthy entry = true) :
    removeMcpFromConfig config =
      (if (objDelete servers (str "valyrianctx")).isEmpty then
        (if (objDelete config (str "mcpServers")).isEmpty then McpRemoveOutcome.deleted
         else McpRemoveOutcome.rewritten (objDelete config (str "mcpServers")))
       else
        (if (objSet config (str "mcpServers")
            (Json.obj (objDelete servers (str "valyrianctx")))).isEmpty then
          McpRemoveOutcome.deleted
         else McpRemoveOutcome.rewritten (objSet config (str "mcpServers")
            (Json.obj (objDelete servers (str "valyrianctx")))))) := by
  simp only [removeMcpFromConfig, h1, h2, h3, if_true]
  by_cases hse : (objDelete servers (str "valyrianctx")).isEmpty
  · rw [if_pos hse, if_pos hse]
  · rw [if_neg hse, if_neg hse]

theorem isEmpty_false_of_lookup (o : JsonObj) (k : Str) (v : Json)
    (h : objLookup o k = some v) : o.isEmpty = false := by
  cases o with
  | nil => simp [objLookup] at h
  | cons kv rest => rfl

/-- C3.  Merging this tool's own server entry into an existing configuration
that has a foreign server entry and unrelated top-level keys, then removing
the entry again, leaves the foreign entry and all unrelated keys unchanged;
and the configuration file is deleted only when no top-level keys remain. -/
theorem claim3_mcp_merge_remove
    (E servers0 frag fragS : JsonObj) (entry : Json)
    (hES : objLookup E (str "mcpServers") = some (Json.obj servers0))
    (hfragS : objLookup frag (str "mcpServers") = some (Json.obj fragS))
    (hfv : objLookup fragS (str "valyrianctx") = some entry)
    (htruthy : jsTruthy entry = true)
    (foreignKey : Str) (hfk : foreignKey ≠ str "valyrianctx")
    (hfragNoForeign : objLookup fragS foreignKey = none)
    (v : Json) (hforeign : objLookup servers0 foreignKey = some v) :
    (∀ k, k ≠ str "mcpServers" →
      objLookup (writeMcpConfigObj (some E) frag) k = objLookup E k) ∧
    (∃ serversM, objLookup (writeMcpConfigObj (some E) frag) (str "mcpServers") =
        some (Json.obj serversM) ∧
      objLookup serversM foreignKey = some v ∧
      objLookup serversM (str "valyrianctx") = some entry) ∧
    (∃ M2, removeMcpFromConfig (writeMcpConfigObj (some E) frag) =
        McpRemoveOutcome.rewritten M2 ∧
      (∀ k, k ≠ str "mcpServers" → objLookup M2 k = objLookup E k) ∧
      ∃ servers2, objLookup M2 (str "mcpServers") = some (Json.obj servers2) ∧
        objLookup servers2 foreignKey = some v ∧
        objLookup servers2 (str "valyrianctx") = none) ∧
    (∀ cfg : JsonObj, removeMcpFromConfig cfg = McpRemoveOutcome.deleted →
      ∀ k, k ≠ str "mcpServers" → objLookup cfg k = none) := by
  have hMeq : writeMcpConfigObj (some E) frag =
      objSet E (str "mcpServers") (Json.obj (objSpread servers0 fragS)) :=
    writeMcpConfigObj_eq E servers0 frag fragS hES hfragS
  have hpart1 : ∀ k, k ≠ str "mcpServers" →
      objLookup (writeMcpConfigObj (some E) frag) k = objLookup E k := by
    intro k hk
    rw [hMeq, objLookup_objSet, if_neg hk]
  have hMS : objLookup (writeMcpConfigObj (some E) frag) (str "mcpServers") =
      some (Json.obj (objSpread servers0 fragS)) := by
    rw [hMeq, objLookup_objSet, if_pos rfl]
  have hMfor : objLookup (objSpread servers0 fragS) foreignKey = some v := by
    rw [objLookup_objSpread, hfragNoForeign, hforeign]
    rfl
  have hMval : objLookup (objSpread servers0 fragS) (str "valyrianctx") = some entry := by
    rw [objLookup_objSpread, hfv]
    rfl
  have hs2for : objLookup (objDelete (objSpread servers0 fragS) (str "valyrianctx"))
      foreignKey = some v := by
    rw [objLookup_objDelete, if_neg hfk, hMfor]
  have hs2empty : (objDelete (objSpread servers0 fragS) (str "valyrianctx")).isEmpty = false :=
    isEmpty_false_of_lookup _ _ _ hs2for
  have hrem := removeMcpFromConfig_eq (writeMcpConfigObj (some E) frag)
    (objSpread servers0 fragS) entry hMS hMval htruthy
  rw [hs2empty] at hrem
  simp only [Bool.false_eq_true, if_false] at hrem
  have hcfg2MS : objLookup (objSet (writeMcpConfigObj (some E) frag) (str "mcpServers")
      (Json.obj (objDelete (objSpread servers0 fragS) (str "valyrianctx"))))
      (str "mcpServers") =
      some (Json.obj (objDelete (objSpread servers0 fragS) (str "valyrianctx"))) := by
    rw [objLookup_objSet, if_pos rfl]
  have hcfg2empty := isEmpty_false_of_lookup _ _ _ hcfg2MS
  rw [hcfg2empty] at hrem
  simp only [Bool.false_eq_true, if_false] at hrem
  refine ⟨hpart1, ⟨objSpread servers0 fragS, hMS, hMfor, hMval⟩, ?_, ?_⟩
  · refine ⟨_, hrem, ?_, ?_⟩
    · intro k hk
      rw [objLookup_objSet, if_neg hk]
      exact hpart1 k hk
    · refine ⟨objDelete (objSpread servers0 fragS) (str "valyrianctx"), hcfg2MS, hs2for, ?_⟩
      rw [objLookup_objDelete, if_pos rfl]
  · intro cfg hdel k hk
    cases hs : objLookup cfg (str "mcpServers") with
    | none =>
      simp [removeMcpFromConfig, hs] at hdel
    | some j =>
      cases j with
      | obj servers =>
        cases hv : objLookup servers (str "valyrianctx") with
        | none => simp [removeMcpFromConfig, hs, hv] at hdel
        | some w =>
          by_cases ht : jsTruthy w = true
          · have hdel2 := hdel
            rw [removeMcpFromConfig_eq cfg servers w hs hv ht] at hdel2
            by_cases hse : (objDelete servers (str "valyrianctx")).isEmpty = true
            · rw [if_pos hse] at hdel2
              by_cases hce : (objDelete cfg (str "mcpServers")).isEmpty = true
              · have hnil : objDelete cfg (str "mcpServers") = [] :=
                  List.isEmpty_iff.mp hce
                have hlook := objLookup_objDelete cfg (str "mcpServers") k
                rw [hnil, if_neg hk] at hlook
                exact hlook.symm
              · rw [if_neg hce] at hdel2
                exact absurd hdel2 (by simp)
            · rw [if_neg hse] at hdel2
              have hcfg2 : objLookup (objSet cfg (str "mcpServers")
                  (Json.obj (objDelete servers (str "valyrianctx")))) (str "mcpServers") =
                  some (Json.obj (objDelete servers (str "valyrianctx"))) := by
                rw [objLookup_objSet, if_pos rfl]
              rw [isEmpty_false_of_lookup _ _ _ hcfg2] at hdel2
              simp at hdel2
          · simp [removeMcpFromConfig, hs, hv, ht] at hdel
      | null => simp [removeMcpFromConfig, hs] at hdel
      | bool b => simp [removeMcpFromConfig, hs] at hdel
      | num n => simp [removeMcpFromConfig, hs] at hdel
      | str s2 => simp [removeMcpFromConfig, hs] at hdel
      | arr xs => simp [removeMcpFromConfig, hs] at hdel

def demoServers : JsonObj :=
  [(str "other-server", Json.obj [(str "command", Json.str (str "other"))])]

def demoConfig : JsonObj :=
  [(str "mcpServers", Json.obj demoServers), (str "someOtherSetting", Json.bool true)]

/-- Witness for C3: a concrete configuration with one foreign server entry
and one unrelated setting survives an add/remove cycle untouched. -/
theorem claim3_mcp_merge_remove_witness :
    objLookup (writeMcpConfigObj (some demoConfig) claudeMcpFrag)
      (str "someOtherSetting") = some (Json.bool true) ∧
    (∀ cfg : JsonObj, removeMcpFromConfig cfg = McpRemoveOutcome.deleted →
      ∀ k, k ≠ str "mcpServers" → objLookup cfg k = none) := by
  have h := claim3_mcp_merge_remove demoConfig demoServers claudeMcpFrag
    [(str "valyrianctx", claudeMcpEntry)] claudeMcpEntry rfl rfl rfl rfl
    (str "other-server") (by decide) rfl
    (Json.obj [(str "command", Json.str (str "other"))]) rfl
  constructor
  · rw [h.1 (str "someOtherSetting") (by decide)]
    rfl
  · exact h.2.2.2


-- ---------------------------------------------------------------------------
-- parser.ts embedding
-- ---------------------------------------------------------------------------

/-- `ExtractedContext` (`parser.ts`). -/
structure ExtractedContext where
  task : Str
  approaches : List Str
  decisions : List Str
  currentState : Str
  nextSteps : List Str
  blockers : List Str
  source : Str
deriving Repr, DecidableEq

/-- JS `array.slice(-n)`. -/
def sliceLast (n : Nat) (l : List Str) : List Str := l.drop (l.length - n)

/-- JS `s.split("\n")[0]`. -/
def firstLine (s : Str) : Str := s.takeWhile (· ≠ '\n')

/-- Property access `j.k` on a JSON value. -/
def jsonLookupField (j : Json) (k : Str) : Option Json :=
  match j with
  | Json.obj fields => objLookup fields k
  | _ => none

/-- JS word character (`\w`). -/
def isWordChar (c : Char) : Bool :=
  ('a' ≤ c && c ≤ 'z') || ('A' ≤ c && c ≤ 'Z') || ('0' ≤ c && c ≤ '9') || c = '_'

def lowerStr (s : Str) : Str := s.map Char.toLower

/-- Case-insensitive literal prefix test (`alt` given lowercase). -/
def ciPrefix (alt s : Str) : Bool := alt.isPrefixOf (lowerStr (s.take alt.length))

-- Sentence splitting: JS `msg.split(/[.!?]\s+/)` ------------------------------

def isSentencePunct (c : Char) : Bool := c = '.' || c = '!' || c = '?'

def splitSentencesFuel : Nat → Str → Str → List Str
  | 0, cur, _ => [cur.reverse]
  | _ + 1, cur, [] => [cur.reverse]
  | fuel + 1, cur, c :: rest =>
    if isSentencePunct c then
      match rest with
      | c2 :: _ =>
        if isWs c2 then cur.reverse :: splitSentencesFuel fuel [] (rest.dropWhile isWs)
        else splitSentencesFuel fuel (c :: cur) rest
      | [] => splitSentencesFuel fuel (c :: cur) rest
    else splitSentencesFuel fuel (c :: cur) rest

/-- JS `msg.split(/[.!?]\s+/)`: split on sentence punctuation followed by
whitespace; the separator (punctuation plus the greedy whitespace run) is
dropped. -/
def splitSentences (s : Str) : List Str := splitSentencesFuel (s.length + 1) [] s

-- Decision keyword: /\b(decid|chos|opt|select|prefer|us(?:e|ing)|going with|approach|architect|pattern|instead of)/i

def decisionAlts : List Str :=
  [str "decid", str "chos", str "opt", str "select", str "prefer", str "use",
   str "using", str "going with", str "approach", str "architect", str "pattern",
   str "instead of"]

def anyAltAt (alts : List Str) (s : Str) : Bool := alts.any fun alt => ciPrefix alt s

def decisionKeywordAux : Option Char → Str → Bool
  | _, [] => false
  | prev, c :: rest =>
    (match prev with
     | none => true
     | some p => !isWordChar p) && anyAltAt decisionAlts (c :: rest) ||
    decisionKeywordAux (some c) rest

/-- Test of the decision-indicator regex of `extractDecisions`: a word
boundary followed by one of the decision keywords, case-insensitive. -/
def decisionKeywordMatch (s : Str) : Bool := decisionKeywordAux none s

/-- `extractDecisions` (`parser.ts:1614-1636`). -/
def extractDecisions (messages : List Str) : List Str :=
  let decisions := (sliceLast 10 messages).foldl
    (fun acc msg =>
      (splitSentences msg).foldl
        (fun acc2 sentence =>
          if decisionKeywordMatch sentence then
            let cleaned := jsTrim sentence
            if cleaned.length > 20 && cleaned.length < 300 && !acc2.contains cleaned then
              acc2 ++ [cleaned]
            else acc2
          else acc2)
        acc)
    []
  decisions.take 10


-- Lazy tail matching: the suffix `\s+(.+?)(\.|$)` / `\s*(.+?)(\.|$)` of the
-- mining regexes.  JS `.` does not match a newline; the lazy quantifier makes
-- the overall match end at the first reachable closing dot, else at the end
-- of input when no newline intervenes.

/-- First index at or after `start` of a character satisfying `p`, else
`s.length`. -/
def idxFrom (p : Char → Bool) (s : Str) (start : Nat) : Nat :=
  match (s.drop start).findIdx? p with
  | some k => start + k
  | none => s.length

/-- End (exclusive offset into `rest`) of the lazy tail match, or `none`.
`wsReq` selects the one-or-more whitespace form over the zero-or-more form. -/
def lazyTailEnd (rest : Str) (wsReq : Bool) : Option Nat :=
  let w := (rest.takeWhile isWs).length
  let csMin := if wsReq then 1 else 0
  if wsReq && w = 0 then none
  else
    let nlIdx := idxFrom (· = '\n') rest w
    let dot := (List.range rest.length).find? fun p =>
      rest.getD p ' ' = '.' &&
        ((p = w && w ≥ csMin + 1 && rest.getD (w - 1) ' ' ≠ '\n') ||
         (w < p && p ≤ nlIdx))
    match dot with
    | some p => if csMin + 1 ≤ p then some (p + 1) else none
    | none =>
      if rest.length ≥ w + 1 && nlIdx = rest.length then some rest.length
      else if rest.length = w && w ≥ csMin + 1 && rest.getD (w - 1) ' ' ≠ '\n' then
        some rest.length
      else none

/-- All matches (full match texts, leftmost, non-overlapping) of a global
case-insensitive regex of the shape keyword-alternation, whitespace, lazy
content, closing dot or end of input. -/
def execAllFuel (alts : List Str) (wsReq : Bool) : Nat → Str → List Str
  | 0, _ => []
  | _ + 1, [] => []
  | fuel + 1, s =>
    match alts.findSome? (fun alt =>
      if ciPrefix alt s then
        match lazyTailEnd (s.drop alt.length) wsReq with
        | some e => some (alt.length + e)
        | none => none
      else none) with
    | some stop => s.take stop :: execAllFuel alts wsReq fuel (s.drop stop)
    | none => execAllFuel alts wsReq fuel (s.drop 1)

def execAll (alts : List Str) (wsReq : Bool) (s : Str) : List Str :=
  execAllFuel alts wsReq (s.length + 1) s

/-- First match only (non-global `match`). -/
def execFirst (alts : List Str) (wsReq : Bool) (s : Str) : Option Str :=
  (execAll alts wsReq s).head?

def approachAlts1 : List Str :=
  [str "tried", str "approach", str "attempted", str "tested", str "experimented with"]

def approachLeads2 : List Str :=
  [str "first", str "then", str "alternatively", str "instead"]

def approachPronouns : List Str := [str "i", str "we", str "let's"]

/-- Matches of the second approach pattern: a lead word, optional comma with
surrounding whitespace, a pronoun, then whitespace and lazy content to a
closing dot or end of input. -/
def execApproach2Fuel : Nat → Str → List Str
  | 0, _ => []
  | _ + 1, [] => []
  | fuel + 1, s =>
    match approachLeads2.findSome? (fun alt =>
      if ciPrefix alt s then
        let afterLead := s.drop alt.length
        let w1 := (afterLead.takeWhile isWs).length
        let afterW1 := afterLead.drop w1
        let commaLen := if afterW1.getD 0 ' ' = ',' then 1 else 0
        let afterComma := afterW1.drop commaLen
        let w2 := (afterComma.takeWhile isWs).length
        let afterPre := afterComma.drop w2
        match approachPronouns.findSome? (fun pr =>
          if ciPrefix pr afterPre then
            match lazyTailEnd (afterPre.drop pr.length) true with
            | some e => some (pr.length + e)
            | none => none
          else none) with
        | some prEnd => some (alt.length + w1 + commaLen + w2 + prEnd)
        | none => none
      else none) with
    | some stop => s.take stop :: execApproach2Fuel fuel (s.drop stop)
    | none => execApproach2Fuel fuel (s.drop 1)

def execApproach2 (s : Str) : List Str := execApproach2Fuel (s.length + 1) s

/-- `extractApproaches` (`parser.ts:1638-1659`). -/
def extractApproaches (messages : List Str) : List Str :=
  let approaches := (sliceLast 10 messages).foldl
    (fun acc msg =>
      let acc1 := (execAll approachAlts1 true msg).foldl
        (fun a2 m =>
          let a := jsTrim m
          if a.length > 10 && a.length < 200 && !a2.contains a then a2 ++ [a] else a2)
        acc
      (execApproach2 msg).foldl
        (fun a2 m =>
          let a := jsTrim m
          if a.length > 10 && a.length < 200 && !a2.contains a then a2 ++ [a] else a2)
        acc1)
    []
  approaches.take 8

def stateAlts : List Str :=
  [str "currently", str "now", str "at this point", str "so far", str "status:", str "status"]

/-- JS `s.split("\n")`. -/
def splitLinesFuel : Nat → Str → Str → List Str
  | 0, cur, _ => [cur.reverse]
  | _ + 1, cur, [] => [cur.reverse]
  | fuel + 1, cur, c :: rest =>
    if c = '\n' then cur.reverse :: splitLinesFuel fuel [] rest
    else splitLinesFuel fuel (c :: cur) rest

def splitLines (s : Str) : List Str := splitLinesFuel (s.length + 1) [] s

/-- `extractState` (`parser.ts:1661-1674`). -/
def extractState (messages : List Str) : Str :=
  let last := (messages.getLast?).getD []
  match execFirst stateAlts false last with
  | some m => (jsTrim m).take 300
  | none =>
    let lines := (splitLines last).filter fun l => (jsTrim l).length > 20
    match lines.getLast? with
    | some l => (jsTrim l).take 300
    | none => []

def nextAlts : List Str :=
  [str "next steps", str "next step", str "todo", str "remaining",
   str "still need to", str "should also"]

def isMarkerCh (c : Char) : Bool := c = '-' || c = '*' || c = '.' || ('0' ≤ c && c ≤ '9')

/-- A line of the list block: optional blanks, one or more marker characters,
then at least one further character. -/
def isListItemLine (l : Str) : Bool :=
  let l1 := l.dropWhile isWs
  let ms := l1.takeWhile isMarkerCh
  !ms.isEmpty && !(l1.drop ms.length).isEmpty

/-- Leftmost case-insensitive occurrence of one of `alts` in `s`: returns the
text after the occurrence. -/
def findAltOccFuel (alts : List Str) : Nat → Str → Option Str
  | 0, _ => none
  | _ + 1, [] => none
  | fuel + 1, s =>
    match alts.findSome? (fun alt =>
        if ciPrefix alt s then some (s.drop alt.length) else none) with
    | some rest => some rest
    | none => findAltOccFuel alts fuel (s.drop 1)

def findAltOcc (alts : List Str) (s : Str) : Option Str :=
  findAltOccFuel alts (s.length + 1) s

/-- `extractNextSteps` (`parser.ts:1676-1693`).  The heading regex is modelled
line-wise: after the leftmost heading keyword an optional colon is skipped
and the following run of list-item lines is captured; items are stripped of
leading blanks and list markers. -/
def extractNextSteps (messages : List Str) : List Str :=
  let steps := (sliceLast 5 messages).foldl
    (fun acc msg =>
      match findAltOcc nextAlts msg with
      | none => acc
      | some after =>
        let after1 := after.dropWhile (fun c => isWs c && c ≠ '\n')
        let after2 := if after1.getD 0 ' ' = ':' then after1.drop 1 else after1
        let after3 := after2.dropWhile (fun c => isWs c && c ≠ '\n')
        let after4 := if after3.getD 0 ' ' = '\n' then after3.drop 1 else after3
        let itemLines := (splitLines after4).takeWhile isListItemLine
        let items := (itemLines.map fun l =>
            jsTrim (l.dropWhile fun c => isWs c || isMarkerCh c)).filter
          fun l => l.length > 5
        acc ++ items)
    []
  steps.eraseDups.take 8

-- ---------------------------------------------------------------------------
-- Claude Code session parsing (`parser.ts:709-783`)
-- ---------------------------------------------------------------------------

/-- Rendering of one entry of a `content` array inside `Array.prototype.join`:
text parts carry a string; `null` and missing fields render empty; booleans
and integers render as their decimal text.  (Nested arrays or objects never
occur as the `text` of a text part; they render empty here.) -/
def textPartValue (c : Json) : Str :=
  match jsonLookupField c (str "text") with
  | some (Json.str t) => t
  | some Json.null => []
  | some (Json.bool b) => if b then str "true" else str "false"
  | some (Json.num n) => str (toString n)
  | some (Json.arr _) => []
  | some (Json.obj _) => []
  | none => []

/-- JS strict equality `v === "lit"` for a possibly-missing value: true only
when the value is present, is a string, and equals the literal. -/
def optIsStr (o : Option Json) (v : Str) : Bool :=
  match o with
  | some (Json.str s) => s = v
  | _ => false

def joinNl (xs : List Str) : Str :=
  match xs with
  | [] => []
  | [x] => x
  | x :: rest => x ++ str "\n" ++ joinNl rest

/-- `extractMessageText` (`parser.ts:772-783`). -/
def extractMessageText (entry : Json) : Str :=
  match jsonLookupField entry (str "message") with
  | none => []
  | some msg =>
    match jsonLookupField msg (str "content") with
    | none => []
    | some (Json.str s) => s
    | some (Json.arr parts) =>
      joinNl ((parts.filter fun c =>
        optIsStr (jsonLookupField c (str "type")) (str "text")).map textPartValue)
    | some _ => []

/-- The classification loop of `parseClaudeSession` (`parser.ts:720-738`):
first-three user messages, all user messages, and long assistant messages.
A `none` line models a JSON line that failed to parse and is skipped. -/
def classifySessionLines (lines : List (Option Json)) :
    List Str × List Str × List Str :=
  lines.foldl
    (fun acc ol =>
      match ol with
      | none => acc
      | some entry =>
        let text := extractMessageText entry
        if text.length < 5 then acc
        else if optIsStr (jsonLookupField entry (str "type")) (str "user") then
          ((if acc.1.length < 3 then acc.1 ++ [text] else acc.1),
           acc.2.1 ++ [text], acc.2.2)
        else if optIsStr (jsonLookupField entry (str "type")) (str "assistant") &&
            text.length > 20 then
          (acc.1, acc.2.1, acc.2.2 ++ [text])
        else acc)
    ([], [], [])

/-- `parseClaudeSession` (`parser.ts:709-770`).  The input is the (bounded)
list of session lines after per-line `JSON.parse`; `none` marks a line whose
parse threw. -/
def parseClaudeSession (lines : List (Option Json)) : Option ExtractedContext :=
  let c := classifySessionLines lines
  let firstUserMessages := c.1
  let lastAssistantMessages := c.2.2
  match firstUserMessages with
  | [] => none
  | intent :: laterUser =>
    let intentFirstLine := jsTrim (firstLine intent)
    let task := if intentFirstLine.length < 300 then intentFirstLine else intent.take 200
    let additionalRequests := laterUser.map fun m =>
      let line := jsTrim (firstLine m)
      if line.length < 200 then line else line.take 200
    let recentAssistant := sliceLast 10 lastAssistantMessages
    some
      { task := task
        approaches :=
          additionalRequests.map (fun r => str "User also asked: " ++ r) ++
            extractApproaches recentAssistant
        decisions := extractDecisions recentAssistant
        currentState :=
          let cs := extractState recentAssistant
          if cs.isEmpty then str "Session data parsed from Claude Code" else cs
        nextSteps := extractNextSteps recentAssistant
        blockers := []
        source := str "claude-code-session" }

-- ---------------------------------------------------------------------------
-- Generic conversation parsing (`parser.ts:1158-1195`)
-- ---------------------------------------------------------------------------

/-- JS `a || b || …`: the first defined-and-truthy field among `keys`. -/
def firstTruthyField (m : Json) (keys : List Str) : Option Json :=
  match keys with
  | [] => none
  | k :: rest =>
    match jsonLookupField m k with
    | some v => if jsTruthy v then some v else firstTruthyField m rest
    | none => firstTruthyField m rest

/-- The classification loop of `parseConversationMessages`
(`parser.ts:1162-1173`). -/
def classifyConversation (messages : List Json) : List Str × List Str :=
  messages.foldl
    (fun acc msg =>
      let role := firstTruthyField msg [str "role", str "type", str "sender"]
      let content :=
        (firstTruthyField msg [str "content", str "text", str "message"]).getD
          (Json.str [])
      match content with
      | Json.str ctext =>
        if ctext.length < 5 then acc
        else if optIsStr role (str "user") || optIsStr role (str "human") then
          (acc.1 ++ [ctext], acc.2)
        else if optIsStr role (str "assistant") || optIsStr role (str "ai") ||
            optIsStr role (str "bot") then
          (acc.1, acc.2 ++ [ctext])
        else acc
      | _ => acc)
    ([], [])

/-- `parseConversationMessages` (`parser.ts:1158-1195`). -/
def parseConversationMessages (messages : List Json) (source : Str) :
    Option ExtractedContext :=
  let c := classifyConversation messages
  match c.1 with
  | [] => none
  | u0 :: laterUser =>
    some
      { task := (jsTrim (firstLine u0)).take 200
        approaches :=
          (laterUser.take 3).map
              (fun m => str "User also asked: " ++ (firstLine m).take 100) ++
            extractApproaches c.2
        decisions := extractDecisions c.2
        currentState :=
          let cs := extractState c.2
          if cs.isEmpty then str "Loaded from " ++ source else cs
        nextSteps := extractNextSteps c.2
        blockers := []
        source := source }

-- ---------------------------------------------------------------------------
-- The extraction pipeline (`parser.ts:584-607`)
-- ---------------------------------------------------------------------------

/-- One extractor's outcome at a given repository path: it may throw
(`Except.error`), return null (`Option.none`), or return a record. -/
abbrev ExtractorOutcome := Except Unit (Option ExtractedContext)

/-- `extractFromEditorSessions` (`parser.ts:584-607`), parameterized by the
extractor functions (their bodies read tool-specific session stores).  The
loop returns the first extractor result that is non-null with a non-empty
`task`; a thrown error falls through to the next extractor. -/
def extractFromEditorSessions {Env : Type}
    (extractors : List (Env → ExtractorOutcome)) (repoPath : Env) :
    Option ExtractedContext :=
  match extractors with
  | [] => none
  | f :: rest =>
    match f repoPath with
    | .error _ => extractFromEditorSessions rest repoPath
    | .ok none => extractFromEditorSessions rest repoPath
    | .ok (some result) =>
      if result.task.isEmpty then extractFromEditorSessions rest repoPath
      else some result

/-- The fixed priority order of the six extractors (`parser.ts:588-595`). -/
def editorSessionExtractorOrder : List Str :=
  [str "claude-code", str "antigravity", str "cursor", str "opencode",
   str "trae", str "warp"]

/-- What the loop treats as a usable outcome. -/
def usableOutcome : ExtractorOutcome → Option ExtractedContext
  | .ok (some result) => if result.task.isEmpty then none else some result
  | _ => none

-- ---------------------------------------------------------------------------
-- Claim theorems (drafts)
-- ---------------------------------------------------------------------------

def decisionSentence : Str :=
  str "We decided to use Postgres because we need transactions."

/-- C6: running the decision miner on text in which the sentence "We decided
to use Postgres because we need transactions." occurs twice — whether twice
inside one message or once in each of two messages — yields a decisions list
containing that exact sentence exactly once, and the miner's output never
exceeds 10 entries for any input. -/
theorem claim6_decision_dedup_and_cap :
    (extractDecisions [decisionSentence ++ str " " ++ decisionSentence]).count
        decisionSentence = 1 ∧
    (extractDecisions [decisionSentence, decisionSentence]).count
        decisionSentence = 1 ∧
    ∀ messages : List Str, (extractDecisions messages).length ≤ 10 := by
  refine ⟨by decide, by decide, fun messages => ?_⟩
  simp only [extractDecisions]
  exact List.length_take_le _ _

/-- C4: for every extractor list and repository path, the extraction pipeline
returns `some ec` exactly when some extractor in the list returns the record
`ec` verbatim with a non-empty task and every extractor strictly before it
yields no usable record (it throws, returns null, or returns an empty task).
Hence the pipeline returns at most one record per invocation, the first
usable source wins in list order, and the returned record is the output of
that single extractor — never a merge of several sources. -/
theorem claim4_pipeline_first_success {Env : Type}
    (extractors : List (Env → ExtractorOutcome)) (repoPath : Env)
    (ec : ExtractedContext) :
    extractFromEditorSessions extractors repoPath = some ec ↔
      ec.task ≠ [] ∧
      ∃ pre f post, extractors = pre ++ f :: post ∧
        f repoPath = .ok (some ec) ∧
        ∀ g ∈ pre, usableOutcome (g repoPath) = none := by
  induction extractors with
  | nil =>
    simp only [extractFromEditorSessions]
    constructor
    · intro h; exact absurd h (by simp)
    · rintro ⟨-, pre, f, post, habs, -⟩
      exact absurd habs (by simp)
  | cons f rest ih =>
    have hstep : ∀ (hu : usableOutcome (f repoPath) = none),
        (extractFromEditorSessions rest repoPath = some ec ↔
          extractFromEditorSessions (f :: rest) repoPath = some ec) := by
      intro hu
      simp only [extractFromEditorSessions]
      match hf : f repoPath with
      | .error e => rfl
      | .ok none => rfl
      | .ok (some r) =>
        simp only [usableOutcome, hf] at hu
        split at hu
        · simp only [*, if_true]
        · exact absurd hu (by simp)
    match hf : f repoPath with
    | .error e =>
      have hu : usableOutcome (f repoPath) = none := by simp [usableOutcome, hf]
      rw [← hstep hu, ih]
      constructor
      · rintro ⟨ht, pre, g, post, hsplit, hg, hpre⟩
        exact ⟨ht, f :: pre, g, post, by rw [hsplit, List.cons_append], hg,
          fun x hx => by
            rcases List.mem_cons.mp hx with h | h
            · rw [h]; exact hu
            · exact hpre x h⟩
      · rintro ⟨ht, pre, g, post, hsplit, hg, hpre⟩
        match pre with
        | [] =>
          simp only [List.nil_append, List.cons.injEq] at hsplit
          rw [← hsplit.1] at hg
          rw [hg] at hf
          exact absurd hf (by simp)
        | p :: pre' =>
          simp only [List.cons_append, List.cons.injEq] at hsplit
          exact ⟨ht, pre', g, post, hsplit.2, hg,
            fun x hx => hpre x (List.mem_cons_of_mem _ hx)⟩
    | .ok none =>
      have hu : usableOutcome (f repoPath) = none := by simp [usableOutcome, hf]
      rw [← hstep hu, ih]
      constructor
      · rintro ⟨ht, pre, g, post, hsplit, hg, hpre⟩
        exact ⟨ht, f :: pre, g, post, by rw [hsplit, List.cons_append], hg,
          fun x hx => by
            rcases List.mem_cons.mp hx with h | h
            · rw [h]; exact hu
            · exact hpre x h⟩
      · rintro ⟨ht, pre, g, post, hsplit, hg, hpre⟩
        match pre with
        | [] =>
          simp only [List.nil_append, List.cons.injEq] at hsplit
          rw [← hsplit.1] at hg
          rw [hg] at hf
          exact absurd hf (by simp)
        | p :: pre' =>
          simp only [List.cons_append, List.cons.injEq] at hsplit
          exact ⟨ht, pre', g, post, hsplit.2, hg,
            fun x hx => hpre x (List.mem_cons_of_mem _ hx)⟩
    | .ok (some r) =>
      by_cases hr : r.task.isEmpty
      · have hu : usableOutcome (f repoPath) = none := by
          simp [usableOutcome, hf, hr]
        rw [← hstep hu, ih]
        constructor
        · rintro ⟨ht, pre, g, post, hsplit, hg, hpre⟩
          exact ⟨ht, f :: pre, g, post, by rw [hsplit, List.cons_append], hg,
            fun x hx => by
              rcases List.mem_cons.mp hx with h | h
              · rw [h]; exact hu
              · exact hpre x h⟩
        · rintro ⟨ht, pre, g, post, hsplit, hg, hpre⟩
          match pre with
          | [] =>
            simp only [List.nil_append, List.cons.injEq] at hsplit
            rw [← hsplit.1] at hg
            rw [hg] at hf
            simp only [Except.ok.injEq, Option.some.injEq] at hf
            rw [← hf] at hr
            rw [List.isEmpty_iff] at hr
            exact absurd hr ht
          | p :: pre' =>
            simp only [List.cons_append, List.cons.injEq] at hsplit
            exact ⟨ht, pre', g, post, hsplit.2, hg,
              fun x hx => hpre x (List.mem_cons_of_mem _ hx)⟩
      · have hlhs : extractFromEditorSessions (f :: rest) repoPath = some r := by
          simp only [extractFromEditorSessions, hf]
          rw [if_neg hr]
        rw [hlhs]
        constructor
        · intro h
          have hec : r = ec := by simpa using h
          subst hec
          refine ⟨?_, [], f, rest, rfl, hf, by simp⟩
          intro hnil
          rw [hnil] at hr
          exact hr rfl
        · rintro ⟨ht, pre, g, post, hsplit, hg, hpre⟩
          match pre with
          | [] =>
            simp only [List.nil_append, List.cons.injEq] at hsplit
            rw [← hsplit.1] at hg
            rw [hg] at hf
            simp only [Except.ok.injEq, Option.some.injEq] at hf
            rw [hf]
          | p :: pre' =>
            simp only [List.cons_append, List.cons.injEq] at hsplit
            have := hpre p (List.mem_cons_self _ _)
            rw [← hsplit.1] at this
            simp [usableOutcome, hf, hr] at this

def claudeDemoLines : List (Option Json) :=
  [some (Json.obj [(str "type", Json.str (str "user")),
     (str "message", Json.obj [(str "content",
       Json.str (str "Refactor payment service"))])]),
   some (Json.obj [(str "type", Json.str (str "user")),
     (str "message", Json.obj [(str "content",
       Json.str (str "Also check billing"))])])]

def convDemoMessages : List Json :=
  [Json.obj [(str "role", Json.str (str "user")),
     (str "content", Json.str (str "Refactor payment service"))],
   Json.obj [(str "role", Json.str (str "user")),
     (str "content", Json.str (str "Also check billing"))]]

/-- C5: for a Claude Code session transcript — and likewise for a generic
conversation transcript — whose first user message is "Refactor payment
service" and whose second user message is "Also check billing", the parsed
record's task equals "Refactor payment service" and its approaches list
contains the entry "User also asked: Also check billing" derived from the
second user message. -/
theorem claim5_transcript_task_and_followup :
    (∃ ec, parseClaudeSession claudeDemoLines = some ec ∧
       ec.task = str "Refactor payment service" ∧
       str "User also asked: Also check billing" ∈ ec.approaches) ∧
    (∃ ec, parseConversationMessages convDemoMessages (str "cursor-chat") = some ec ∧
       ec.task = str "Refactor payment service" ∧
       str "User also asked: Also check billing" ∈ ec.approaches) := by
  constructor
  · refine ⟨_, rfl, ?_, ?_⟩ <;> decide
  · refine ⟨_, rfl, ?_, ?_⟩ <;> decide


-- ---------------------------------------------------------------------------
-- Fallible synchronization runs, the ignore-list synchronizer, auto-save
-- ---------------------------------------------------------------------------

-- ---------------------------------------------------------------------------
-- C10: the auto-save guard (`save.ts`)
-- ---------------------------------------------------------------------------

/-- The fields of a stored `ContextEntry` that the auto-save guard inspects,
with the timestamp as epoch milliseconds (`new Date(e.timestamp).getTime()`). -/
structure ContextEntry where
  timestamp : Int
  task : Str
  approaches : List Str
  decisions : List Str
  currentState : Str
  nextSteps : List Str
  blockers : List Str
deriving Repr, DecidableEq

/-- The guard of `--auto` mode (`save.ts:58-71`): skip when the branch's
latest entry is rich (has approaches or decisions) and its timestamp is less
than five minutes before `now`. -/
def autoSaveGuardSkips (now : Int) (store : List ContextEntry) : Bool :=
  match store.getLast? with
  | none => false
  | some latest =>
    (!latest.approaches.isEmpty || !latest.decisions.isEmpty) &&
      decide (now - latest.timestamp < 5 * 60 * 1000)

/-- The `--auto` path of `saveCommand` (`save.ts:57-90, 167-189`): the branch
store in, the branch store out, together with whether the editor sessions
were scanned (`extractFromEditorSessions` invoked).  `sessionExtract` is the
outcome such a scan would produce; `message` is the optional positional
message (`none` models a missing or empty message, which is JS-falsy). -/
def saveCommandAuto (now : Int) (message : Option Str)
    (sessionExtract : Option ExtractedContext) (store : List ContextEntry) :
    List ContextEntry × Bool :=
  if autoSaveGuardSkips now store then (store, false)
  else
    let entry : ContextEntry :=
      match sessionExtract with
      | some ec =>
        { timestamp := now, task := message.getD ec.task,
          approaches := ec.approaches, decisions := ec.decisions,
          currentState := ec.currentState, nextSteps := ec.nextSteps,
          blockers := ec.blockers }
      | none =>
        { timestamp := now,
          task := message.getD (str "Session (auto-extract found nothing)"),
          approaches := [], decisions := [],
          currentState := message.getD [], nextSteps := [], blockers := [] }
    (store ++ [entry], true)

/-- C10: in `--auto` mode, when the branch's latest saved entry has at least
one approach or at least one decision and its timestamp is less than five
minutes old, `saveCommand` returns at once: the context store is unchanged
and the editor sessions are never scanned — a recent rich structured save is
never overwritten by an auto-save. -/
theorem claim10_auto_save_guard (now : Int) (message : Option Str)
    (sessionExtract : Option ExtractedContext) (store : List ContextEntry)
    (latest : ContextEntry) (hl : store.getLast? = some latest)
    (hrich : latest.approaches ≠ [] ∨ latest.decisions ≠ [])
    (hage : now - latest.timestamp < 5 * 60 * 1000) :
    saveCommandAuto now message sessionExtract store = (store, false) := by
  have hguard : autoSaveGuardSkips now store = true := by
    rw [autoSaveGuardSkips, hl]
    simp only [Bool.and_eq_true, Bool.or_eq_true, decide_eq_true_eq,
      Bool.not_eq_true', List.isEmpty_eq_false]
    exact ⟨hrich, hage⟩
  simp only [saveCommandAuto]
  rw [if_pos hguard]

/-- Witness for C10: a one-entry store whose entry is 1 second old and lists
one approach is left untouched. -/
theorem claim10_auto_save_guard_witness :
    saveCommandAuto 1000 none none
      [{ timestamp := 0, task := str "t", approaches := [str "a"], decisions := [],
         currentState := str "s", nextSteps := [], blockers := [] }] =
      ([{ timestamp := 0, task := str "t", approaches := [str "a"], decisions := [],
          currentState := str "s", nextSteps := [], blockers := [] }], false) :=
  claim10_auto_save_guard 1000 none none
    [{ timestamp := 0, task := str "t", approaches := [str "a"], decisions := [],
       currentState := str "s", nextSteps := [], blockers := [] }]
    { timestamp := 0, task := str "t", approaches := [str "a"], decisions := [],
      currentState := str "s", nextSteps := [], blockers := [] }
    (by simp) (Or.inl (by simp)) (by decide)

-- ---------------------------------------------------------------------------
-- C7: `writeIDERules` with fallible writes
-- ---------------------------------------------------------------------------

def emptyFS : FS := fun _ => none

def fileText : Option FileVal → Option Str
  | some (FileVal.text s) => some s
  | _ => none

def fileJson : Option FileVal → Option JsonObj
  | some (FileVal.json o) => some o
  | _ => none

/-- A `fs.writeFileSync` that throws on the paths in `failPaths` (permission
or disk error) and otherwise stores the value. -/
def tryFsWrite (failPaths : List Str) (fs : FS) (p : Str) (v : FileVal) :
    Except Str FS :=
  if p ∈ failPaths then Except.error p else Except.ok (fsWrite fs p v)

/-- The value written for one rule target (`agent-rules.ts:324-332`). -/
def ruleWriteVal (rule : IDERuleConfig) (fs : FS) : FileVal :=
  if rule.appendToExisting then
    FileVal.text (appendOrUpdateSection (fileText (fs rule.filePath)) rule.content
      rule.markerStart rule.markerEnd).1
  else FileVal.text (rule.content ++ str "\n")

/-- The action reported for one rule target (`agent-rules.ts:324-332`). -/
def ruleWriteAct (rule : IDERuleConfig) (fs : FS) : WriteAction :=
  if rule.appendToExisting then
    (appendOrUpdateSection (fileText (fs rule.filePath)) rule.content
      rule.markerStart rule.markerEnd).2
  else if (fs rule.filePath).isSome then WriteAction.updated else WriteAction.created

/-- The header comment block of `updateGitignore` (`agent-rules.ts:445-447`). -/
def gitignoreHeaderTag : Str := str "# ValyrianCtx IDE rules"

def gitignoreHeaderLine : Str := str "# ValyrianCtx IDE rules (local, not shared)"

/-- `updateGitignore` (`agent-rules.ts:435-456`) acting on the ignore file's
contents (`[]` models an absent file); `none` = no path to add, no write. -/
def updateGitignore (content : Str) (paths : List Str) : Option Str :=
  let toAdd := paths.filter fun p => !containsSub p content
  if toAdd.isEmpty then none
  else
    let withHeader :=
      if containsSub gitignoreHeaderTag content then content
      else content ++ str "\n" ++ gitignoreHeaderLine ++ str "\n"
    some (withHeader ++ joinNl toAdd ++ str "\n")

/-- The per-rule loop of `writeIDERules` (`agent-rules.ts:313-349`) with
fallible writes.  On success: the file system, the `written` report and the
`gitignoreAdditions` list.  On a throw: the file system at the moment of the
throw together with the failing path — the exception aborts the loop (there
is no per-target catch; `rulesCommand` catches once, outside the loop). -/
def writeRulesLoop (failPaths : List Str) (includeMcp : Bool) :
    List IDERuleConfig → FS → List (Str × WriteAction) → List Str →
    Except (FS × Str) (FS × List (Str × WriteAction) × List Str)
  | [], fs, written, gi => Except.ok (fs, written, gi)
  | rule :: rest, fs, written, gi =>
    match tryFsWrite failPaths fs rule.filePath (ruleWriteVal rule fs) with
    | Except.error p => Except.error (fs, p)
    | Except.ok fs2 =>
      let written2 := written ++ [(rule.filePath, ruleWriteAct rule fs)]
      let gi2 := if rule.gitignore then gi ++ [rule.filePath] else gi
      match includeMcp, rule.mcpConfigPath, rule.mcpConfig with
      | true, some mp, some frag =>
        let mact := if (fs2 mp).isSome then WriteAction.updated else WriteAction.created
        match tryFsWrite failPaths fs2 mp
            (FileVal.json (writeMcpConfigObj (fileJson (fs2 mp)) frag)) with
        | Except.error p => Except.error (fs2, p)
        | Except.ok fs3 =>
          writeRulesLoop failPaths includeMcp rest fs3
            (written2 ++ [(mp, mact)]) (gi2 ++ [mp])
      | _, _, _ => writeRulesLoop failPaths includeMcp rest fs2 written2 gi2

def gitignorePath : Str := str ".gitignore"

/-- `writeIDERules` over all targets (`agent-rules.ts:300-356`) with fallible
writes, including `updateGitignore`'s final write. -/
def writeIDERules (failPaths : List Str) (includeMcp : Bool) (fs : FS) :
    Except (FS × Str) (FS × List (Str × WriteAction)) :=
  match writeRulesLoop failPaths includeMcp getAllIDERules fs [] [] with
  | Except.error e => Except.error e
  | Except.ok (fs2, written, gi) =>
    if gi.isEmpty then Except.ok (fs2, written)
    else
      match updateGitignore ((fileText (fs2 gitignorePath)).getD []) gi with
      | none => Except.ok (fs2, written)
      | some newC =>
        match tryFsWrite failPaths fs2 gitignorePath (FileVal.text newC) with
        | Except.error p => Except.error (fs2, p)
        | Except.ok fs3 => Except.ok (fs3, written)

theorem writeRulesLoop_fail_head (failPaths : List Str) (inc : Bool)
    (rule : IDERuleConfig) (rest : List IDERuleConfig) (fs : FS)
    (w : List (Str × WriteAction)) (gi : List Str)
    (h : rule.filePath ∈ failPaths) :
    writeRulesLoop failPaths inc (rule :: rest) fs w gi =
      Except.error (fs, rule.filePath) := by
  rw [writeRulesLoop, tryFsWrite, if_pos h]

theorem writeRulesLoop_ok_head_mcp (failPaths : List Str)
    (rule : IDERuleConfig) (rest : List IDERuleConfig) (fs : FS)
    (w : List (Str × WriteAction)) (gi : List Str) (mp : Str) (frag : JsonObj)
    (h1 : rule.filePath ∉ failPaths) (hmp : rule.mcpConfigPath = some mp)
    (hmc : rule.mcpConfig = some frag) (h2 : mp ∉ failPaths) :
    writeRulesLoop failPaths true (rule :: rest) fs w gi =
      writeRulesLoop failPaths true rest
        (fsWrite (fsWrite fs rule.filePath (ruleWriteVal rule fs)) mp
          (FileVal.json (writeMcpConfigObj
            (fileJson (fsWrite fs rule.filePath (ruleWriteVal rule fs) mp)) frag)))
        ((w ++ [(rule.filePath, ruleWriteAct rule fs)]) ++
          [(mp, if (fsWrite fs rule.filePath (ruleWriteVal rule fs) mp).isSome
                then WriteAction.updated else WriteAction.created)])
        (((if rule.gitignore then gi ++ [rule.filePath] else gi)) ++ [mp]) := by
  rw [writeRulesLoop, tryFsWrite, if_neg h1]
  simp only [hmp, hmc]
  rw [tryFsWrite, if_neg h2]

theorem writeRulesLoop_ok_head_nomcp (failPaths : List Str) (inc : Bool)
    (rule : IDERuleConfig) (rest : List IDERuleConfig) (fs : FS)
    (w : List (Str × WriteAction)) (gi : List Str)
    (h1 : rule.filePath ∉ failPaths)
    (h2 : inc = false ∨ rule.mcpConfigPath = none) :
    writeRulesLoop failPaths inc (rule :: rest) fs w gi =
      writeRulesLoop failPaths inc rest
        (fsWrite fs rule.filePath (ruleWriteVal rule fs))
        (w ++ [(rule.filePath, ruleWriteAct rule fs)])
        (if rule.gitignore then gi ++ [rule.filePath] else gi) := by
  rw [writeRulesLoop, tryFsWrite, if_neg h1]
  rcases h2 with rfl | hmp
  · rfl
  · simp only [hmp]

/-- C7 counterexample: with only the Cursor rule path failing, the whole
`writeIDERules` invocation aborts — the run surfaces one global error rather
than a per-target failure, and the later Antigravity (`GEMINI.md`) and Trae
targets are never written, while the already-processed Claude Code target's
file persists. -/
theorem claim7_per_target_isolation_counterexample :
    ∃ fsAbort,
      writeIDERules [str ".cursor/rules/valyrianctx.mdc"] true emptyFS =
        Except.error (fsAbort, str ".cursor/rules/valyrianctx.mdc") ∧
      fsAbort (str "GEMINI.md") = none ∧
      fsAbort (str ".trae/rules/valyrianctx.md") = none ∧
      (fsAbort (str "CLAUDE.md")).isSome = true := by
  exact ⟨_, rfl, rfl, rfl, rfl⟩

/-- C7 (amended).  `writeIDERules` has no per-target error isolation: a write
failure on one target (here the Cursor rule file) propagates as a failure of
the entire invocation.  Writes made before the throw persist on disk, targets
after the failing one (Antigravity's `GEMINI.md`, OpenCode's `AGENTS.md`) are
left untouched, and no per-target report survives. -/
theorem claim7_write_failure_aborts_run (fs : FS)
    (hg : fs (str "GEMINI.md") = none) (ha : fs (str "AGENTS.md") = none) :
    ∃ fsAbort,
      writeIDERules [str ".cursor/rules/valyrianctx.mdc"] true fs =
        Except.error (fsAbort, str ".cursor/rules/valyrianctx.mdc") ∧
      fsAbort (str "GEMINI.md") = none ∧
      fsAbort (str "AGENTS.md") = none ∧
      (fsAbort (str "CLAUDE.md")).isSome = true := by
  rw [writeIDERules]
  rw [show getAllIDERules = claudeCodeRule :: [cursorRule, antigravityRule,
    antigravityDirRule, opencodeRule, traeRule, warpRule] from rfl]
  rw [writeRulesLoop_ok_head_mcp _ claudeCodeRule _ fs _ _
    (str ".claude/settings.local.json") claudeMcpFrag
    (by decide) rfl rfl (by decide)]
  rw [writeRulesLoop_fail_head _ _ cursorRule _ _ _ _ (by decide)]
  refine ⟨_, rfl, ?_, ?_, ?_⟩
  · show fsWrite (fsWrite fs (str "CLAUDE.md") _) (str ".claude/settings.local.json") _
      (str "GEMINI.md") = none
    rw [fsWrite, if_neg (by decide), fsWrite, if_neg (by decide)]
    exact hg
  · show fsWrite (fsWrite fs (str "CLAUDE.md") _) (str ".claude/settings.local.json") _
      (str "AGENTS.md") = none
    rw [fsWrite, if_neg (by decide), fsWrite, if_neg (by decide)]
    exact ha
  · show (fsWrite (fsWrite fs (str "CLAUDE.md") _) (str ".claude/settings.local.json") _
      (str "CLAUDE.md")).isSome = true
    rw [fsWrite, if_neg (by decide), fsWrite, if_pos rfl]
    rfl

/-- Witness for the amended C7 at the empty file system. -/
theorem claim7_write_failure_aborts_run_witness :
    ∃ fsAbort,
      writeIDERules [str ".cursor/rules/valyrianctx.mdc"] true emptyFS =
        Except.error (fsAbort, str ".cursor/rules/valyrianctx.mdc") ∧
      fsAbort (str "GEMINI.md") = none ∧
      fsAbort (str "AGENTS.md") = none ∧
      (fsAbort (str "CLAUDE.md")).isSome = true :=
  claim7_write_failure_aborts_run emptyFS rfl rfl

-- ---------------------------------------------------------------------------
-- C8: the scope of context injection and clearing
-- ---------------------------------------------------------------------------

/-- The fixed text between `ctxStart` and the injected context markdown
(`agent-rules.ts:629-640`). -/
def ctxHeader : Str := str "\n\n## Session Context (auto-synced by valyrianctx)\n\n> This section is auto-updated after every save and branch switch.\n> The AI reads this automatically — no commands needed to resume.\n\n"

/-- The text between the context markers in an injected section. -/
def ctxMid (ctx : Str) : Str := ctxHeader ++ ctx ++ str "\n\n"

theorem contextSection_eq (ctx : Str) :
    contextSection ctx = ctxStart ++ ctxMid ctx ++ ctxEnd := by
  simp [contextSection, ctxMid, ctxHeader, List.append_assoc]

theorem cleanCtxHeader : pieceCleanAll ctxHeader = true := by decide

theorem ctxMid_clean_ctxEnd (ctx : Str) (hctx : pieceCleanAll ctx = true) :
    occCount ctxEnd (ctxMid ctx) = 0 := by
  have hflat : ctxMid ctx = [ctxHeader, ctx, str "\n\n"].flatten := by
    simp [ctxMid, List.flatten_cons, List.flatten_nil, List.append_assoc]
  rw [hflat]
  refine occCount_join_zero _ _ ?_
  intro p hp
  simp only [List.mem_cons, List.not_mem_nil, or_false] at hp
  rcases hp with rfl | rfl | rfl
  · exact pieceCleanAll_ctxEnd _ cleanCtxHeader
  · exact pieceCleanAll_ctxEnd _ hctx
  · decide

theorem clearSpansFuel_none (mS mE : Str) (f : Nat) (s : Str)
    (h : splitFirst mS s = none) : clearSpansFuel mS mE f s = s := by
  cases f with
  | zero => rfl
  | succ f => simp [clearSpansFuel, h]

theorem splitFirst_nl_ctxStart : splitFirst ctxStart (str "\n") = none := by decide

theorem clearSpans_canonical (m u : Str) (hm : occCount ctxEnd m = 0)
    (hu : occCount ctxStart u = 0) :
    clearSpans ctxStart ctxEnd (u ++ (ctxStart ++ m ++ ctxEnd ++ str "\n")) =
      dropAllTrailingNl u := by
  have hsf : splitFirst ctxStart (u ++ (ctxStart ++ m ++ ctxEnd ++ str "\n")) =
      some (u, m ++ ctxEnd ++ str "\n") := by
    rw [show u ++ (ctxStart ++ m ++ ctxEnd ++ str "\n") =
      u ++ ctxStart ++ (m ++ ctxEnd ++ str "\n") by simp [List.append_assoc]]
    exact splitFirst_clean_append ctxStart u _ (by decide) hu unbordered_ctxStart
  have hin : splitFirst ctxEnd (m ++ ctxEnd ++ str "\n") = some (m, str "\n") :=
    splitFirst_clean_append ctxEnd m _ (by decide) hm unbordered_ctxEnd
  rw [clearSpans]
  rw [show ∀ n, clearSpansFuel ctxStart ctxEnd (n + 1)
        (u ++ (ctxStart ++ m ++ ctxEnd ++ str "\n")) =
      match splitFirst ctxStart (u ++ (ctxStart ++ m ++ ctxEnd ++ str "\n")) with
      | none => u ++ (ctxStart ++ m ++ ctxEnd ++ str "\n")
      | some (pre, rest) =>
        match splitFirst ctxEnd rest with
        | none => u ++ (ctxStart ++ m ++ ctxEnd ++ str "\n")
        | some (_, post) =>
          dropAllTrailingNl pre ++ clearSpansFuel ctxStart ctxEnd n (dropOneLeadingNl post)
      from fun n => rfl]
  rw [hsf]
  simp only
  rw [hin]
  simp only
  rw [show dropOneLeadingNl (str "\n") = [] from rfl]
  rw [clearSpansFuel_none _ _ _ _ (splitFirst_empty ctxStart (by decide))]
  rw [List.append_nil]

theorem dropWhile_subsumed (p q : Char → Bool) (h : ∀ c, p c = true → q c = true)
    (l : Str) : (l.dropWhile p).dropWhile q = l.dropWhile q := by
  induction l with
  | nil => rfl
  | cons c t ih =>
    by_cases hc : p c = true
    · rw [List.dropWhile_cons_of_pos hc, ih, List.dropWhile_cons_of_pos (h c hc)]
    · rw [List.dropWhile_cons_of_neg hc]

theorem jsTrimEnd_dropAllTrailingNl (s : Str) :
    jsTrimEnd (dropAllTrailingNl s) = jsTrimEnd s := by
  rw [jsTrimEnd, dropAllTrailingNl, List.reverse_reverse]
  rw [dropWhile_subsumed _ isWs (fun c hc => by
    have : c = '\n' := by simpa using hc
    subst this
    decide) s.reverse]
  rfl

/-- Per-file round trip: injecting a context section into a context-free,
newline-terminated, trim-stable document and then clearing it restores the
document byte-identically — in particular any instruction marker span in the
document survives untouched. -/
theorem clear_after_inject (ctx u t0 : Str) (cl : Char)
    (hshape : u = t0 ++ ['\n'])
    (hlast : t0.getLast? = some cl) (hcl : isWs cl = false)
    (hu : occCount ctxStart u = 0)
    (hctx : pieceCleanAll ctx = true) :
    clearContextFromFile (injectIntoFile (contextSection ctx) u) = u := by
  have hnc : containsSub ctxStart u = false :=
    (containsSub_false_iff ctxStart u (by decide)).mpr hu
  rw [injectIntoFile, hnc]
  simp only [Bool.false_eq_true, if_false]
  have hew : endsWithNl u = true := by
    rw [hshape]
    exact endsWithNl_concat t0
  rw [hew]
  simp only [if_true]
  rw [contextSection_eq]
  have hre : u ++ str "\n" ++ (ctxStart ++ ctxMid ctx ++ ctxEnd) ++ str "\n" =
      (u ++ str "\n") ++ (ctxStart ++ ctxMid ctx ++ ctxEnd ++ str "\n") := by
    simp [List.append_assoc]
  rw [hre]
  rw [clearContextFromFile]
  have hun : occCount ctxStart (u ++ str "\n") = 0 := by
    rw [occCount_append_right _ _ _ (noDropPrefixIn_spec _ _ sepFacts.1.2.2.2.2.1)]
    rw [hu, sepFacts.2.2.2.2.2.1]

  rw [clearSpans_canonical (ctxMid ctx) (u ++ str "\n")
    (ctxMid_clean_ctxEnd ctx hctx) hun]
  rw [jsTrimEnd_dropAllTrailingNl]
  rw [show u ++ str "\n" = u ++ ['\n'] from rfl]
  rw [jsTrimEnd_append_ws u '\n' (by decide)]
  rw [hshape]
  rw [jsTrimEnd_append_ws t0 '\n' (by decide)]
  rw [jsTrimEnd_eq_self t0 cl hlast hcl]
  rfl

/-- The loop body of `injectContextIntoRules` (`agent-rules.ts:642-666`). -/
def injectStep (sec : Str) (acc : FS × Nat) (rule : IDERuleConfig) : FS × Nat :=
  if rule.gitignore then
    match acc.1 rule.filePath with
    | some (.text content) =>
      (fsWrite acc.1 rule.filePath (.text (injectIntoFile sec content)), acc.2 + 1)
    | some (.json _) => acc
    | none => acc
  else acc

/-- The loop body of `clearContextFromRules` (`agent-rules.ts:678-694`). -/
def clearStep (acc : FS × Nat) (rule : IDERuleConfig) : FS × Nat :=
  if rule.gitignore then
    match acc.1 rule.filePath with
    | some (.text content) =>
      if containsSub ctxStart content then
        (fsWrite acc.1 rule.filePath (.text (clearContextFromFile content)), acc.2 + 1)
      else acc
    | some (.json _) => acc
    | none => acc
  else acc

theorem injectContextIntoRules_eq (fs : FS) (ctx : Str) :
    injectContextIntoRules fs ctx =
      getAllIDERules.foldl (injectStep (contextSection ctx)) (fs, 0) := rfl

theorem clearContextFromRules_eq (fs : FS) :
    clearContextFromRules fs = getAllIDERules.foldl clearStep (fs, 0) := rfl

theorem injectStep_frame (sec : Str) (acc : FS × Nat) (rule : IDERuleConfig) (p : Str)
    (h : rule.gitignore = true → p ≠ rule.filePath) :
    (injectStep sec acc rule).1 p = acc.1 p := by
  unfold injectStep
  by_cases hg : rule.gitignore = true
  · rw [if_pos hg]
    cases hv : acc.1 rule.filePath with
    | none => rfl
    | some v =>
      cases v with
      | text c =>
        simp only
        rw [fsWrite, if_neg (h hg)]
      | json o => rfl
  · rw [if_neg hg]

theorem injectStep_none (sec : Str) (acc : FS × Nat) (rule : IDERuleConfig) (p : Str)
    (h : acc.1 p = none) : (injectStep sec acc rule).1 p = none := by
  unfold injectStep
  by_cases hg : rule.gitignore = true
  · rw [if_pos hg]
    cases hv : acc.1 rule.filePath with
    | none => exact h
    | some v =>
      cases v with
      | text c =>
        simp only
        rw [fsWrite]
        by_cases hp : p = rule.filePath
        · rw [hp, hv] at h
          exact absurd h (by simp)
        · rw [if_neg hp]
          exact h
      | json o => exact h
  · rw [if_neg hg]
    exact h

theorem clearStep_frame (acc : FS × Nat) (rule : IDERuleConfig) (p : Str)
    (h : rule.gitignore = true → p ≠ rule.filePath) :
    (clearStep acc rule).1 p = acc.1 p := by
  unfold clearStep
  by_cases hg : rule.gitignore = true
  · rw [if_pos hg]
    cases hv : acc.1 rule.filePath with
    | none => rfl
    | some v =>
      cases v with
      | text c =>
        simp only
        by_cases hcc : containsSub ctxStart c = true
        · rw [if_pos hcc]
          simp only
          rw [fsWrite, if_neg (h hg)]
        · rw [if_neg hcc]
      | json o => rfl
  · rw [if_neg hg]

theorem clearStep_none (acc : FS × Nat) (rule : IDERuleConfig) (p : Str)
    (h : acc.1 p = none) : (clearStep acc rule).1 p = none := by
  unfold clearStep
  by_cases hg : rule.gitignore = true
  · rw [if_pos hg]
    cases hv : acc.1 rule.filePath with
    | none => exact h
    | some v =>
      cases v with
      | text c =>
        simp only
        by_cases hcc : containsSub ctxStart c = true
        · rw [if_pos hcc]
          simp only
          rw [fsWrite]
          by_cases hp : p = rule.filePath
          · rw [hp, hv] at h
            exact absurd h (by simp)
          · rw [if_neg hp]
            exact h
        · rw [if_neg hcc]
          exact h
      | json o => exact h
  · rw [if_neg hg]
    exact h

theorem foldl_fs_frame (step : FS × Nat → IDERuleConfig → FS × Nat)
    (rules : List IDERuleConfig) (acc : FS × Nat) (p : Str)
    (h : ∀ r ∈ rules, ∀ a : FS × Nat, (step a r).1 p = a.1 p) :
    (rules.foldl step acc).1 p = acc.1 p := by
  induction rules generalizing acc with
  | nil => rfl
  | cons r rest ih =>
    rw [List.foldl_cons]
    rw [ih (step acc r) (fun q hq a => h q (List.mem_cons_of_mem r hq) a)]
    exact h r (List.mem_cons_self r rest) acc

theorem foldl_fs_none (step : FS × Nat → IDERuleConfig → FS × Nat)
    (rules : List IDERuleConfig) (acc : FS × Nat) (p : Str)
    (h : ∀ r ∈ rules, ∀ a : FS × Nat, a.1 p = none → (step a r).1 p = none)
    (h0 : acc.1 p = none) :
    (rules.foldl step acc).1 p = none := by
  induction rules generalizing acc with
  | nil => exact h0
  | cons r rest ih =>
    rw [List.foldl_cons]
    exact ih (step acc r) (fun q hq a => h q (List.mem_cons_of_mem r hq) a)
      (h r (List.mem_cons_self r rest) acc h0)

/-- C8: context injection and clearing touch only the rule files of
gitignored targets that already exist (any other path of the file system is
left byte-identical, and an absent file is never created); and clearing after
an injection removes exactly the injected context span: on any
newline-terminated, trim-stable document with no prior context marker, the
inject-then-clear round trip is the identity, so the static instruction span
and all other content survive untouched. -/
theorem claim8_context_injection_scope :
    (∀ (fs : FS) (ctx p : Str),
       (∀ r ∈ getAllIDERules, r.gitignore = true → p ≠ r.filePath) →
       (injectContextIntoRules fs ctx).1 p = fs p) ∧
    (∀ (fs : FS) (ctx p : Str), fs p = none →
       (injectContextIntoRules fs ctx).1 p = none) ∧
    (∀ (fs : FS) (p : Str),
       (∀ r ∈ getAllIDERules, r.gitignore = true → p ≠ r.filePath) →
       (clearContextFromRules fs).1 p = fs p) ∧
    (∀ (fs : FS) (p : Str), fs p = none → (clearContextFromRules fs).1 p = none) ∧
    (∀ ctx u t0 cl, u = t0 ++ ['\n'] → t0.getLast? = some cl → isWs cl = false →
       occCount ctxStart u = 0 → pieceCleanAll ctx = true →
       clearContextFromFile (injectIntoFile (contextSection ctx) u) = u) := by
  refine ⟨?_, ?_, ?_, ?_, ?_⟩
  · intro fs ctx p hp
    rw [injectContextIntoRules_eq]
    exact foldl_fs_frame _ _ _ _ fun r hr a => injectStep_frame _ a r p (hp r hr)
  · intro fs ctx p h0
    rw [injectContextIntoRules_eq]
    exact foldl_fs_none _ _ _ _ (fun r hr a ha => injectStep_none _ a r p ha) h0
  · intro fs p hp
    rw [clearContextFromRules_eq]
    exact foldl_fs_frame _ _ _ _ fun r hr a => clearStep_frame a r p (hp r hr)
  · intro fs p h0
    rw [clearContextFromRules_eq]
    exact foldl_fs_none _ _ _ _ (fun r hr a ha => clearStep_none a r p ha) h0
  · intro ctx u t0 cl hshape hlast hcl hu hctx
    exact clear_after_inject ctx u t0 cl hshape hlast hcl hu hctx

/-- Witness for C8: a concrete document round-trips, and the operations
create nothing on an empty file system. -/
theorem claim8_context_injection_scope_witness :
    clearContextFromFile
      (injectIntoFile (contextSection (str "Task: demo")) (str "# Rules\n")) =
      str "# Rules\n" ∧
    (injectContextIntoRules emptyFS (str "Task: demo")).1 (str "CLAUDE.md") = none ∧
    (clearContextFromRules emptyFS).1 (str "GEMINI.md") = none := by
  refine ⟨claim8_context_injection_scope.2.2.2.2 (str "Task: demo") (str "# Rules\n") (str "# Rules")
    's' (by decide) (by decide) (by decide) (by decide) (by decide), ?_, ?_⟩
  · exact claim8_context_injection_scope.2.1 emptyFS (str "Task: demo") (str "CLAUDE.md") rfl
  · exact claim8_context_injection_scope.2.2.2.1 emptyFS (str "GEMINI.md") rfl

-- ---------------------------------------------------------------------------
-- C9: idempotence of the ignore-list synchronizer
-- ---------------------------------------------------------------------------

/-- One `updateGitignore` run: the resulting ignore-file contents (unchanged
when there was nothing to add). -/
def runGitignore (content : Str) (paths : List Str) : Str :=
  (updateGitignore content paths).getD content

/-- The lines of a text, split at every newline (JS `split("\n")` semantics);
property vocabulary for the duplicate-line statements. -/
def lines : Str → List Str
  | [] => [[]]
  | c :: rest =>
    if c = '\n' then [] :: lines rest
    else
      match lines rest with
      | l :: ls => (c :: l) :: ls
      | [] => [[c]]

theorem lines_cons_nl (rest : Str) : lines ('\n' :: rest) = [] :: lines rest := by
  simp [lines]

theorem lines_cons_not (c : Char) (rest : Str) (hc : ¬ c = '\n') :
    lines (c :: rest) =
      match lines rest with
      | l :: ls => (c :: l) :: ls
      | [] => [[c]] := by
  simp [lines, hc]

theorem lines_ne_nil (s : Str) : lines s ≠ [] := by
  cases s with
  | nil => simp [lines]
  | cons c rest =>
    by_cases hc : c = '\n'
    · simp [lines, hc]
    · simp only [lines, if_neg hc]
      cases lines rest <;> simp

theorem lines_append_nl (x y : Str) : lines (x ++ '\n' :: y) = lines x ++ lines y := by
  induction x with
  | nil => simp [lines]
  | cons c t ih =>
    by_cases hc : c = '\n'
    · subst hc
      rw [List.cons_append, lines_cons_nl, ih, lines_cons_nl, List.cons_append]
    · rw [List.cons_append, lines_cons_not c _ hc, ih, lines_cons_not c _ hc]
      cases hl : lines t with
      | nil => exact absurd hl (lines_ne_nil t)
      | cons l ls =>
        simp

theorem lines_no_nl (p : Str) (h : '\n' ∉ p) : lines p = [p] := by
  induction p with
  | nil => rfl
  | cons c t ih =>
    have hc : ¬ c = '\n' := fun e => h (by rw [e]; exact List.mem_cons_self _ _)
    rw [lines_cons_not c t hc, ih fun hm => h (List.mem_cons_of_mem c hm)]

theorem lines_joinNl (ps : List Str) (h : ∀ p ∈ ps, '\n' ∉ p) (hne : ps ≠ []) :
    lines (joinNl ps) = ps := by
  induction ps with
  | nil => exact absurd rfl hne
  | cons x rest ih =>
    cases rest with
    | nil =>
      show lines (joinNl [x]) = [x]
      rw [show joinNl [x] = x from rfl, lines_no_nl x (h x (List.mem_cons_self _ _))]
    | cons y r =>
      have hj : joinNl (x :: y :: r) = x ++ '\n' :: joinNl (y :: r) := by
        rw [show joinNl (x :: y :: r) = x ++ str "\n" ++ joinNl (y :: r) from rfl,
          List.append_assoc]
        rfl
      rw [hj, lines_append_nl, lines_no_nl x (h x (List.mem_cons_self _ _)),
        ih (fun p hp => h p (List.mem_cons_of_mem x hp)) (by simp)]
      rfl

theorem exists_concat_of_endsWithNl (c : Str) (h : endsWithNl c = true) :
    ∃ c', c = c' ++ ['\n'] := by
  have hne : c ≠ [] := by
    intro hnil
    rw [hnil] at h
    simp [endsWithNl] at h
  have hl : c.getLast hne = '\n' := by
    have hh := List.getLast?_eq_getLast c hne
    rw [endsWithNl, hh] at h
    simpa using h
  exact ⟨c.dropLast, by rw [← hl]; exact (List.dropLast_append_getLast hne).symm⟩

theorem occCount_le_append_right (pat a b : Str) :
    occCount pat b ≤ occCount pat (a ++ b) := by
  induction a with
  | nil => exact le_refl _
  | cons c t ih =>
    rw [List.cons_append, occCount]
    exact le_trans ih (Nat.le_add_left _ _)

theorem occCount_le_append_left (pat a b : Str) :
    occCount pat a ≤ occCount pat (a ++ b) := by
  induction a with
  | nil => exact Nat.zero_le _
  | cons c t ih =>
    rw [List.cons_append, occCount, occCount]
    refine Nat.add_le_add ?_ ih
    by_cases hp : pat.isPrefixOf (c :: t) = true
    · have hp2 : pat.isPrefixOf (c :: (t ++ b)) = true := by
        rw [ List.isPrefixOf_iff_prefix] at hp ⊢
        rw [← List.cons_append]
        exact hp.trans ( List.prefix_append _ _)
      rw [if_pos hp, if_pos hp2]
    · rw [if_neg hp]
      exact Nat.zero_le _

theorem containsSub_of_occCount (pat s : Str) (hp : pat ≠ [])
    (h : occCount pat s ≠ 0) : containsSub pat s = true := by
  by_contra hc
  rw [Bool.not_eq_true] at hc
  exact h ((containsSub_false_iff pat s hp).mp hc)

theorem occCount_ne_zero_of_containsSub (pat s : Str) (hp : pat ≠ [])
    (h : containsSub pat s = true) : occCount pat s ≠ 0 := by
  intro h0
  have hf := (containsSub_false_iff pat s hp).mpr h0
  rw [h] at hf
  exact absurd hf (by simp)

theorem containsSub_mono_left (pat a b : Str) (hp : pat ≠ [])
    (h : containsSub pat a = true) : containsSub pat (a ++ b) = true := by
  refine containsSub_of_occCount pat _ hp fun h0 => ?_
  have hle := occCount_le_append_left pat a b
  rw [h0] at hle
  exact occCount_ne_zero_of_containsSub pat a hp h (Nat.le_zero.mp hle)

theorem containsSub_mono_right (pat a b : Str) (hp : pat ≠ [])
    (h : containsSub pat b = true) : containsSub pat (a ++ b) = true := by
  refine containsSub_of_occCount pat _ hp fun h0 => ?_
  have hle := occCount_le_append_right pat a b
  rw [h0] at hle
  exact occCount_ne_zero_of_containsSub pat b hp h (Nat.le_zero.mp hle)

theorem occCount_self_append_ne_zero (p z : Str) (hp : p ≠ []) :
    occCount p (p ++ z) ≠ 0 := by
  cases p with
  | nil => exact absurd rfl hp
  | cons c t =>
    rw [List.cons_append, occCount]
    have hpre : (c :: t).isPrefixOf (c :: (t ++ z)) = true := by
      rw [ List.isPrefixOf_iff_prefix, ← List.cons_append]
      exact List.prefix_append _ _
    rw [if_pos hpre]
    simp

theorem containsSub_self_append (p z : Str) (hp : p ≠ []) :
    containsSub p (p ++ z) = true :=
  containsSub_of_occCount p _ hp (occCount_self_append_ne_zero p z hp)

theorem containsSub_mem_joinNl (ps : List Str) (p : Str) (hp : p ≠ [])
    (h : p ∈ ps) : containsSub p (joinNl ps) = true := by
  induction ps with
  | nil => exact absurd h (List.not_mem_nil p)
  | cons x rest ih =>
    rcases List.mem_cons.mp h with rfl | hr
    · cases rest with
      | nil =>
        have hs := containsSub_self_append p [] hp
        rwa [List.append_nil] at hs
      | cons y r =>
        rw [show joinNl (p :: y :: r) = p ++ (str "\n" ++ joinNl (y :: r)) by
          simp [joinNl, List.append_assoc]]
        exact containsSub_self_append p _ hp
    · cases rest with
      | nil => exact absurd hr (List.not_mem_nil p)
      | cons y r =>
        rw [show joinNl (x :: y :: r) = (x ++ str "\n") ++ joinNl (y :: r) by
          simp [joinNl, List.append_assoc]]
        exact containsSub_mono_right p _ _ hp (ih hr)

theorem runGitignore_end (c : Str) (P : List Str)
    (h : endsWithNl c = true ∨ c = []) :
    endsWithNl (runGitignore c P) = true ∨ runGitignore c P = [] := by
  rw [runGitignore, updateGitignore]
  simp only
  by_cases hT : (P.filter fun q => !containsSub q c).isEmpty = true
  · rw [if_pos hT]
    exact h
  · rw [if_neg hT]
    simp only [Option.getD]
    left
    exact endsWithNl_concat _

theorem runGitignore_count (c : Str) (P : List Str) (p : Str)
    (hend : endsWithNl c = true ∨ c = [])
    (hPnl : ∀ q ∈ P, '\n' ∉ q)
    (hpne : p ≠ []) (hph : p ≠ gitignoreHeaderLine) :
    (lines (runGitignore c P)).count p =
      (lines c).count p + (P.filter fun q => !containsSub q c).count p := by
  rw [runGitignore, updateGitignore]
  simp only
  by_cases hT : (P.filter fun q => !containsSub q c).isEmpty = true
  · rw [if_pos hT]
    rw [List.isEmpty_iff.mp hT]
    simp
  · rw [if_neg hT]
    simp only [Option.getD]
    have hTne : (P.filter fun q => !containsSub q c) ≠ [] :=
      fun h => hT (List.isEmpty_iff.mpr h)
    have hTnl : ∀ q ∈ P.filter fun q => !containsSub q c, '\n' ∉ q :=
      fun q hq => hPnl q (List.mem_of_mem_filter hq)
    have hlT := lines_joinNl _ hTnl hTne
    have hcnt0 : ([] : Str) ≠ p := fun e => hpne e.symm
    have hcnth : gitignoreHeaderLine ≠ p := fun e => hph e.symm
    rcases hend with hew | rfl
    · obtain ⟨c', rfl⟩ := exists_concat_of_endsWithNl c hew
      have hlc : lines (c' ++ ['\n']) = lines c' ++ [[]] := by
        rw [show c' ++ ['\n'] = c' ++ '\n' :: [] from rfl, lines_append_nl]
        rfl
      by_cases hhd : containsSub gitignoreHeaderTag (c' ++ ['\n']) = true
      · rw [if_pos hhd]
        have hre : (c' ++ ['\n']) ++
              joinNl (List.filter (fun q => !containsSub q (c' ++ ['\n'])) P) ++ str "\n" =
            c' ++ '\n' :: (joinNl (List.filter (fun q => !containsSub q (c' ++ ['\n'])) P) ++
              '\n' :: []) := by
          simp [strNl_eq]
        rw [hre, lines_append_nl]
        rw [show ∀ z : Str, z ++ '\n' :: [] = z ++ '\n' :: ([] : Str) from fun z => rfl]
        rw [lines_append_nl, hlT, hlc]
        simp [lines, List.count_append, List.count_cons, List.count_nil, hcnt0, hpne]
      · rw [if_neg hhd]
        have hre : ((c' ++ ['\n']) ++ str "\n" ++ gitignoreHeaderLine ++ str "\n") ++
              joinNl (List.filter (fun q => !containsSub q (c' ++ ['\n'])) P) ++ str "\n" =
            c' ++ '\n' :: ('\n' :: (gitignoreHeaderLine ++ '\n' ::
              (joinNl (List.filter (fun q => !containsSub q (c' ++ ['\n'])) P) ++
                '\n' :: []))) := by
          simp [strNl_eq]
        rw [hre, lines_append_nl]
        rw [show ∀ z : Str, ('\n' :: z : Str) = [] ++ '\n' :: z from fun z => rfl]
        rw [lines_append_nl, lines_append_nl, lines_append_nl, hlT, hlc]
        rw [lines_no_nl gitignoreHeaderLine (by decide)]
        simp [lines, List.count_append, List.count_cons, List.count_nil, hcnt0, hcnth,
          hpne, hph]
    · have hhd : containsSub gitignoreHeaderTag [] = false := by decide
      rw [hhd]
      simp only [Bool.false_eq_true, if_false]
      have hre : (([] : Str) ++ str "\n" ++ gitignoreHeaderLine ++ str "\n") ++
            joinNl (List.filter (fun q => !containsSub q ([] : Str)) P) ++ str "\n" =
          ([] : Str) ++ '\n' :: (gitignoreHeaderLine ++ '\n' ::
            (joinNl (List.filter (fun q => !containsSub q ([] : Str)) P) ++ '\n' :: [])) := by
        simp [strNl_eq]
      rw [hre, lines_append_nl, lines_append_nl, lines_append_nl, hlT]
      rw [lines_no_nl gitignoreHeaderLine (by decide)]
      simp [lines, List.count_append, List.count_cons, List.count_nil, hcnt0, hcnth,
        hpne, hph]

theorem runGitignore_hdr_count (c : Str) (P : List Str)
    (hend : endsWithNl c = true ∨ c = [])
    (hPnl : ∀ q ∈ P, '\n' ∉ q)
    (hPh : ∀ q ∈ P, q ≠ gitignoreHeaderLine) :
    (lines (runGitignore c P)).count gitignoreHeaderLine =
      (lines c).count gitignoreHeaderLine +
        (if (P.filter fun q => !containsSub q c).isEmpty = true then 0
         else if containsSub gitignoreHeaderTag c = true then 0 else 1) := by
  rw [runGitignore, updateGitignore]
  simp only
  by_cases hT : (P.filter fun q => !containsSub q c).isEmpty = true
  · rw [if_pos hT, if_pos hT]
    simp
  · rw [if_neg hT, if_neg hT]
    simp only [Option.getD]
    have hTne : (P.filter fun q => !containsSub q c) ≠ [] :=
      fun h => hT (List.isEmpty_iff.mpr h)
    have hTnl : ∀ q ∈ P.filter fun q => !containsSub q c, '\n' ∉ q :=
      fun q hq => hPnl q (List.mem_of_mem_filter hq)
    have hlT := lines_joinNl _ hTnl hTne
    have hcntT : (P.filter fun q => !containsSub q c).count gitignoreHeaderLine = 0 :=
      List.count_eq_zero.mpr fun hmem =>
        hPh _ (List.mem_of_mem_filter hmem) rfl
    have hcnt0 : ([] : Str) ≠ gitignoreHeaderLine := by decide
    have hhne : ¬ gitignoreHeaderLine = [] := by decide
    rcases hend with hew | rfl
    · obtain ⟨c', rfl⟩ := exists_concat_of_endsWithNl c hew
      have hlc : lines (c' ++ ['\n']) = lines c' ++ [[]] := by
        rw [show c' ++ ['\n'] = c' ++ '\n' :: [] from rfl, lines_append_nl]
        rfl
      by_cases hhd : containsSub gitignoreHeaderTag (c' ++ ['\n']) = true
      · rw [if_pos hhd, if_pos hhd]
        have hre : (c' ++ ['\n']) ++
              joinNl (List.filter (fun q => !containsSub q (c' ++ ['\n'])) P) ++ str "\n" =
            c' ++ '\n' :: (joinNl (List.filter (fun q => !containsSub q (c' ++ ['\n'])) P) ++
              '\n' :: []) := by
          simp [strNl_eq]
        rw [hre, lines_append_nl]
        rw [show ∀ z : Str, z ++ '\n' :: [] = z ++ '\n' :: ([] : Str) from fun z => rfl]
        rw [lines_append_nl, hlT, hlc]
        simp [lines, List.count_append, List.count_cons, List.count_nil, hcnt0, hcntT, hhne]
      · rw [if_neg hhd, if_neg hhd]
        have hre : ((c' ++ ['\n']) ++ str "\n" ++ gitignoreHeaderLine ++ str "\n") ++
              joinNl (List.filter (fun q => !containsSub q (c' ++ ['\n'])) P) ++ str "\n" =
            c' ++ '\n' :: ('\n' :: (gitignoreHeaderLine ++ '\n' ::
              (joinNl (List.filter (fun q => !containsSub q (c' ++ ['\n'])) P) ++
                '\n' :: []))) := by
          simp [strNl_eq]
        rw [hre, lines_append_nl]
        rw [show ∀ z : Str, ('\n' :: z : Str) = [] ++ '\n' :: z from fun z => rfl]
        rw [lines_append_nl, lines_append_nl, lines_append_nl, hlT, hlc]
        rw [lines_no_nl gitignoreHeaderLine (by decide)]
        simp [lines, List.count_append, List.count_cons, List.count_nil, hcnt0, hcntT, hhne]
    · have hhd : containsSub gitignoreHeaderTag [] = false := by decide
      rw [hhd]
      simp only [Bool.false_eq_true, if_false]
      have hre : (([] : Str) ++ str "\n" ++ gitignoreHeaderLine ++ str "\n") ++
            joinNl (List.filter (fun q => !containsSub q ([] : Str)) P) ++ str "\n" =
          ([] : Str) ++ '\n' :: (gitignoreHeaderLine ++ '\n' ::
            (joinNl (List.filter (fun q => !containsSub q ([] : Str)) P) ++ '\n' :: [])) := by
        simp [strNl_eq]
      rw [hre, lines_append_nl, lines_append_nl, lines_append_nl, hlT]
      rw [lines_no_nl gitignoreHeaderLine (by decide)]
      simp [lines, List.count_append, List.count_cons, List.count_nil, hcnt0, hcntT, hhne]

theorem runGitignore_mono (c : Str) (P : List Str) (p : Str) (hp : p ≠ [])
    (h : containsSub p c = true) : containsSub p (runGitignore c P) = true := by
  rw [runGitignore, updateGitignore]
  simp only
  by_cases hT : (P.filter fun q => !containsSub q c).isEmpty = true
  · rw [if_pos hT]
    exact h
  · rw [if_neg hT]
    simp only [Option.getD]
    by_cases hhd : containsSub gitignoreHeaderTag c = true
    · rw [if_pos hhd]
      exact containsSub_mono_left p _ _ hp (containsSub_mono_left p _ _ hp h)
    · rw [if_neg hhd]
      exact containsSub_mono_left p _ _ hp (containsSub_mono_left p _ _ hp
        (containsSub_mono_left p _ _ hp (containsSub_mono_left p _ _ hp
          (containsSub_mono_left p _ _ hp h))))

theorem runGitignore_mem (c : Str) (P : List Str) (p : Str) (hp : p ≠ [])
    (h : p ∈ P) : containsSub p (runGitignore c P) = true := by
  by_cases hc : containsSub p c = true
  · exact runGitignore_mono c P p hp hc
  · have hmem : p ∈ P.filter fun q => !containsSub q c := by
      rw [List.mem_filter]
      exact ⟨h, by simp [hc]⟩
    have hT : ¬ (P.filter fun q => !containsSub q c).isEmpty = true := by
      intro he
      rw [List.isEmpty_iff.mp he] at hmem
      exact absurd hmem (List.not_mem_nil p)
    rw [runGitignore, updateGitignore]
    simp only
    rw [if_neg hT]
    simp only [Option.getD]
    exact containsSub_mono_left p _ _ hp (containsSub_mono_right p _ _ hp
      (containsSub_mem_joinNl _ p hp hmem))

theorem runGitignore_hdrTag_after (c : Str) (P : List Str)
    (hne : ¬ (P.filter fun q => !containsSub q c).isEmpty = true) :
    containsSub gitignoreHeaderTag (runGitignore c P) = true := by
  rw [runGitignore, updateGitignore]
  simp only
  rw [if_neg hne]
  simp only [Option.getD]
  by_cases hhd : containsSub gitignoreHeaderTag c = true
  · rw [if_pos hhd]
    exact containsSub_mono_left _ _ _ (by decide)
      (containsSub_mono_left _ _ _ (by decide) hhd)
  · rw [if_neg hhd]
    have hself : containsSub gitignoreHeaderTag gitignoreHeaderLine = true := by decide
    exact containsSub_mono_left _ _ _ (by decide)
      (containsSub_mono_left _ _ _ (by decide)
        (containsSub_mono_left _ _ _ (by decide)
          (containsSub_mono_right _ _ _ (by decide) hself)))

theorem count_filter_zero_of_contains (P : List Str) (X p : Str)
    (h : containsSub p X = true) :
    (P.filter fun q => !containsSub q X).count p = 0 :=
  List.count_eq_zero.mpr fun hm => by
    have h2 := (List.mem_filter.mp hm).2
    rw [h] at h2
    exact absurd h2 (by simp)

theorem count_filter_zero_of_not_mem (P : List Str) (X p : Str) (h : p ∉ P) :
    (P.filter fun q => !containsSub q X).count p = 0 :=
  List.count_eq_zero.mpr fun hm => h (List.mem_of_mem_filter hm)

theorem count_le_one_of_nodup (l : List Str) (p : Str) (h : l.Nodup) :
    l.count p ≤ 1 := by
  induction l with
  | nil => simp
  | cons x t ih =>
    rw [List.count_cons]
    obtain ⟨hx, ht⟩ := List.nodup_cons.mp h
    by_cases he : x = p
    · subst he
      have hz : t.count x = 0 := List.count_eq_zero.mpr hx
      simp [hz]
    · have hb : (x == p) = false := by simp [he]
      rw [hb]
      simpa using ih ht

theorem count_filter_le_one (P : List Str) (X p : Str) (h : P.Nodup) :
    (P.filter fun q => !containsSub q X).count p ≤ 1 :=
  count_le_one_of_nodup _ p (h.filter _)

theorem ite_ite_le_one (A B : Prop) [Decidable A] [Decidable B] :
    (if A then 0 else if B then 0 else (1 : Nat)) ≤ 1 := by
  by_cases hA : A
  · rw [if_pos hA]
    omega
  · rw [if_neg hA]
    by_cases hB : B
    · rw [if_pos hB]
      omega
    · rw [if_neg hB]

theorem ite_ite_zero_of_right (A B : Prop) [Decidable A] [Decidable B] (h : B) :
    (if A then 0 else if B then 0 else (1 : Nat)) = 0 := by
  by_cases hA : A
  · rw [if_pos hA]
  · rw [if_neg hA, if_pos h]

/-- C9: three successive `updateGitignore` runs over overlapping path sets
never produce a duplicate path line (each path gains at most one line over
the initial file, and exactly none when it was already present as a
substring), and the labeled header comment line is added at most once.
Hypotheses: the initial file is empty or newline-terminated, the paths are
nonempty, newline-free, distinct from the header line, and duplicate-free
within each run. -/
theorem claim9_gitignore_idempotent (c0 : Str) (P1 P2 P3 : List Str)
    (hend : endsWithNl c0 = true ∨ c0 = [])
    (hP : ∀ q ∈ P1 ++ P2 ++ P3, q ≠ [] ∧ '\n' ∉ q ∧ q ≠ gitignoreHeaderLine)
    (hn1 : P1.Nodup) (hn2 : P2.Nodup) (hn3 : P3.Nodup) :
    (∀ p ∈ P1 ++ P2 ++ P3,
       (lines (runGitignore (runGitignore (runGitignore c0 P1) P2) P3)).count p ≤
         (lines c0).count p + 1) ∧
    (∀ p ∈ P1 ++ P2 ++ P3, containsSub p c0 = true →
       (lines (runGitignore (runGitignore (runGitignore c0 P1) P2) P3)).count p =
         (lines c0).count p) ∧
    (lines (runGitignore (runGitignore (runGitignore c0 P1) P2) P3)).count
        gitignoreHeaderLine ≤
      (lines c0).count gitignoreHeaderLine + 1 := by
  have hP1 : ∀ q ∈ P1, q ≠ [] ∧ '\n' ∉ q ∧ q ≠ gitignoreHeaderLine :=
    fun q hq => hP q (by simp [hq])
  have hP2 : ∀ q ∈ P2, q ≠ [] ∧ '\n' ∉ q ∧ q ≠ gitignoreHeaderLine :=
    fun q hq => hP q (by simp [hq])
  have hP3 : ∀ q ∈ P3, q ≠ [] ∧ '\n' ∉ q ∧ q ≠ gitignoreHeaderLine :=
    fun q hq => hP q (by simp [hq])
  have hnl1 : ∀ q ∈ P1, '\n' ∉ q := fun q hq => (hP1 q hq).2.1
  have hnl2 : ∀ q ∈ P2, '\n' ∉ q := fun q hq => (hP2 q hq).2.1
  have hnl3 : ∀ q ∈ P3, '\n' ∉ q := fun q hq => (hP3 q hq).2.1
  have hend1 := runGitignore_end c0 P1 hend
  have hend2 := runGitignore_end (runGitignore c0 P1) P2 hend1
  have hcount : ∀ p, p ≠ [] → p ≠ gitignoreHeaderLine →
      (lines (runGitignore (runGitignore (runGitignore c0 P1) P2) P3)).count p =
        (lines c0).count p + (P1.filter fun q => !containsSub q c0).count p +
          (P2.filter fun q => !containsSub q (runGitignore c0 P1)).count p +
          (P3.filter fun q => !containsSub q
            (runGitignore (runGitignore c0 P1) P2)).count p := by
    intro p hpne hph
    rw [runGitignore_count _ P3 p hend2 hnl3 hpne hph,
      runGitignore_count _ P2 p hend1 hnl2 hpne hph,
      runGitignore_count c0 P1 p hend hnl1 hpne hph]
  refine ⟨?_, ?_, ?_⟩
  · intro p hp
    obtain ⟨hpne, hpnl, hph⟩ := hP p hp
    rw [hcount p hpne hph]
    by_cases hm1 : p ∈ P1
    · have hc1 : containsSub p (runGitignore c0 P1) = true :=
        runGitignore_mem c0 P1 p hpne hm1
      have hc2 : containsSub p (runGitignore (runGitignore c0 P1) P2) = true :=
        runGitignore_mono _ P2 p hpne hc1
      rw [count_filter_zero_of_contains P2 _ p hc1,
        count_filter_zero_of_contains P3 _ p hc2]
      have := count_filter_le_one P1 c0 p hn1
      omega
    · rw [count_filter_zero_of_not_mem P1 c0 p hm1]
      by_cases hm2 : p ∈ P2
      · have hc2 : containsSub p (runGitignore (runGitignore c0 P1) P2) = true :=
          runGitignore_mem _ P2 p hpne hm2
        rw [count_filter_zero_of_contains P3 _ p hc2]
        have := count_filter_le_one P2 (runGitignore c0 P1) p hn2
        omega
      · rw [count_filter_zero_of_not_mem P2 _ p hm2]
        have := count_filter_le_one P3 (runGitignore (runGitignore c0 P1) P2) p hn3
        omega
  · intro p hp hc0
    obtain ⟨hpne, hpnl, hph⟩ := hP p hp
    rw [hcount p hpne hph]
    have hc1 : containsSub p (runGitignore c0 P1) = true :=
      runGitignore_mono c0 P1 p hpne hc0
    have hc2 : containsSub p (runGitignore (runGitignore c0 P1) P2) = true :=
      runGitignore_mono _ P2 p hpne hc1
    rw [count_filter_zero_of_contains P1 c0 p hc0,
      count_filter_zero_of_contains P2 _ p hc1,
      count_filter_zero_of_contains P3 _ p hc2]
    omega
  · have hh1 : ∀ q ∈ P1, q ≠ gitignoreHeaderLine := fun q hq => (hP1 q hq).2.2
    have hh2 : ∀ q ∈ P2, q ≠ gitignoreHeaderLine := fun q hq => (hP2 q hq).2.2
    have hh3 : ∀ q ∈ P3, q ≠ gitignoreHeaderLine := fun q hq => (hP3 q hq).2.2
    rw [runGitignore_hdr_count _ P3 hend2 hnl3 hh3,
      runGitignore_hdr_count _ P2 hend1 hnl2 hh2,
      runGitignore_hdr_count c0 P1 hend hnl1 hh1]
    by_cases hc1 : containsSub gitignoreHeaderTag (runGitignore c0 P1) = true
    · have hc2 : containsSub gitignoreHeaderTag
          (runGitignore (runGitignore c0 P1) P2) = true :=
        runGitignore_mono _ P2 _ (by decide) hc1
      rw [ite_ite_zero_of_right _ _ hc1, ite_ite_zero_of_right _ _ hc2]
      have := ite_ite_le_one
        ((P1.filter fun q => !containsSub q c0).isEmpty = true)
        (containsSub gitignoreHeaderTag c0 = true)
      omega
    · have hE1 : (P1.filter fun q => !containsSub q c0).isEmpty = true := by
        by_contra hne
        exact hc1 (runGitignore_hdrTag_after c0 P1 hne)
      rw [if_pos hE1]
      by_cases hc2 : containsSub gitignoreHeaderTag
          (runGitignore (runGitignore c0 P1) P2) = true
      · rw [ite_ite_zero_of_right _ _ hc2]
        have := ite_ite_le_one
          ((P2.filter fun q => !containsSub q (runGitignore c0 P1)).isEmpty = true)
          (containsSub gitignoreHeaderTag (runGitignore c0 P1) = true)
        omega
      · have hE2 : (P2.filter fun q =>
            !containsSub q (runGitignore c0 P1)).isEmpty = true := by
          by_contra hne
          exact hc2 (runGitignore_hdrTag_after _ P2 hne)
        rw [if_pos hE2]
        have := ite_ite_le_one
          ((P3.filter fun q =>
            !containsSub q (runGitignore (runGitignore c0 P1) P2)).isEmpty = true)
          (containsSub gitignoreHeaderTag
            (runGitignore (runGitignore c0 P1) P2) = true)
        omega

/-- Witness for C9: three overlapping concrete runs from an absent file. -/
theorem claim9_gitignore_idempotent_witness :
    (∀ p ∈ [str "a.md", str "b.md"] ++ [str "a.md", str "c.md"] ++ [str "a.md"],
       (lines (runGitignore (runGitignore (runGitignore [] [str "a.md", str "b.md"])
           [str "a.md", str "c.md"]) [str "a.md"])).count p ≤
         (lines []).count p + 1) ∧
    (∀ p ∈ [str "a.md", str "b.md"] ++ [str "a.md", str "c.md"] ++ [str "a.md"],
       containsSub p [] = true →
       (lines (runGitignore (runGitignore (runGitignore [] [str "a.md", str "b.md"])
           [str "a.md", str "c.md"]) [str "a.md"])).count p =
         (lines []).count p) ∧
    (lines (runGitignore (runGitignore (runGitignore [] [str "a.md", str "b.md"])
        [str "a.md", str "c.md"]) [str "a.md"])).count gitignoreHeaderLine ≤
      (lines []).count gitignoreHeaderLine + 1 :=
  claim9_gitignore_idempotent [] [str "a.md", str "b.md"] [str "a.md", str "c.md"] [str "a.md"]
    (Or.inr rfl) (by decide) (by decide) (by decide) (by decide)

end Valyrianctx
